import Mathlib

/-!
Verification of the Bubble Babble encoder (`src/lib.rs`).

The Rust source is shallowly embedded: bytes are modelled as `List Nat`
(every `u8` value is a `Nat` below 256; the bit operations `>> k` and
`& (2^k - 1)` are translated to `/ 2^k` and `% 2^k`), the mutable
`String` buffer and `seed` accumulator of `bubblebabble_impl` become the
state threaded through a fold over the round indices, and the stable-mode
post-processing (split on `'-'`, run-length collapse, `"babab"`→`"wa"`
substitution) is translated function by function.
-/

set_option maxRecDepth 20000

/-- The vowel table of `bubblebabble_impl`. -/
def vowels : List Char := ['a', 'e', 'i', 'o', 'u', 'y']

/-- The consonant table of `bubblebabble_impl`. -/
def consonants : List Char :=
  ['b', 'c', 'd', 'f', 'g', 'h', 'k', 'l', 'm', 'n', 'p', 'r', 's', 't', 'v', 'z', 'x']

/-- One iteration of the encoding loop of `bubblebabble_impl`: given the
round index `i` and the current `seed`, produce the characters pushed onto
`bubble` during that round together with the seed value after the round.
`rounds` is `bytes.len() / 2 + 1` as in the source. -/
def roundStep (bytes : List Nat) (use_seed : Bool) (rounds i seed : Nat) :
    List Char × Nat :=
  if i + 1 < rounds ∨ bytes.length % 2 ≠ 0 then
    let b0 := bytes.getD (2 * i) 0
    let i0 := (b0 / 64 % 4 + seed) % 6
    let i1 := b0 / 4 % 16
    let i2 := (b0 % 4 + seed / 6) % 6
    if i + 1 < rounds then
      let b1 := bytes.getD (2 * i + 1) 0
      let i3 := b1 / 16 % 16
      let i4 := b1 % 16
      let seed2 := if use_seed then (seed * 5 + (b0 * 7 + b1)) % 36 else 0
      ([vowels.getD i0 ' ', consonants.getD i1 ' ', vowels.getD i2 ' ',
        consonants.getD i3 ' ', '-', consonants.getD i4 ' '], seed2)
    else
      ([vowels.getD i0 ' ', consonants.getD i1 ' ', vowels.getD i2 ' '], seed)
  else
    ([vowels.getD (seed % 6) ' ', consonants.getD 16 ' ',
      vowels.getD (seed / 6) ' '], seed)

/-- The body of the `for i in 0..rounds` loop: append the characters of
round `i` to the accumulated output and update the seed. -/
def loopBody (bytes : List Nat) (use_seed : Bool) (rounds : Nat)
    (st : List Char × Nat) (i : Nat) : List Char × Nat :=
  let r := roundStep bytes use_seed rounds i st.2
  (st.1 ++ r.1, r.2)

/-- The raw bubble string built by the loop of `bubblebabble_impl`
(the value of `bubble` just after the final `bubble.push('x')`). -/
def rawBabble (bytes : List Nat) (use_seed : Bool) : List Char :=
  let rounds := bytes.length / 2 + 1
  let st := (List.range rounds).foldl (loopBody bytes use_seed rounds) ([], 1)
  'x' :: st.1 ++ ['x']

/-- Rust's `str::split('-')`: cut a character list at every `'-'`. -/
def splitDash : List Char → List (List Char)
  | [] => [[]]
  | c :: cs =>
    if c = '-' then [] :: splitDash cs
    else (c :: (splitDash cs).headI) :: (splitDash cs).tail

/-- The character of a decimal digit, as produced by Rust's
`usize::to_string`. -/
def digitChar (d : Nat) : Char := Char.ofNat (48 + d)

/-- Fuel-indexed decimal printer (most significant digit first). -/
def digitsGo : Nat → Nat → List Char
  | 0, n => [digitChar (n % 10)]
  | f + 1, n => if n < 10 then [digitChar n] else digitsGo f (n / 10) ++ [digitChar (n % 10)]

/-- Rust's `count.to_string()`: the decimal digits of `n`. -/
def natDigits (n : Nat) : List Char := digitsGo n n

/-- One iteration of the repetition-compression loop of
`bubblebabble_impl`; the state is `(result, last, count)` and the input
is the `(i, word)` pair produced by `.enumerate()`. -/
def compressStep (st : List Char × List Char × Nat) (p : Nat × List Char) :
    List Char × List Char × Nat :=
  let result := st.1
  let last := st.2.1
  let count := st.2.2
  let i := p.1
  let word := p.2
  if last = word then (result, last, count + 1)
  else if 0 < i then
    ((if 1 < i then result ++ ['-'] else result) ++
      (if 1 < count then natDigits count else []) ++ last, word, 1)
  else (result, word, count)

/-- The stable-mode repetition compression of `bubblebabble_impl`:
fold the loop over the enumerated words, then push `'-'` and the last
word. -/
def compress (ws : List (List Char)) : List Char :=
  let st := ws.enum.foldl compressStep ([], [], 1)
  st.1 ++ '-' :: st.2.1

/-- Fuel-indexed scanner for Rust's `result.replace("babab", "wa")`:
at each position, if `"babab"` starts here, emit `"wa"` and continue
after the match, otherwise keep the character. -/
def replaceGo : Nat → List Char → List Char
  | 0, l => l
  | _ + 1, [] => []
  | f + 1, c :: rest =>
    if ['b', 'a', 'b', 'a', 'b'] <+: c :: rest then
      'w' :: 'a' :: replaceGo f (rest.drop 4)
    else c :: replaceGo f rest

/-- Rust's `result.replace("babab", "wa")`. -/
def replaceBabab (l : List Char) : List Char := replaceGo l.length l

/-- The full `bubblebabble_impl` of the source: the checksum mode returns
the raw bubble string; the stable mode compresses repetitions and
substitutes `"babab"` by `"wa"`. -/
def bubblebabble_impl (bytes : List Nat) (use_seed : Bool) : String :=
  let bubble := rawBabble bytes use_seed
  if use_seed then ⟨bubble⟩
  else ⟨replaceBabab (compress (splitDash bubble))⟩

/-- `pub fn bubblebabble` of the source. -/
def bubblebabble (bytes : List Nat) : String := bubblebabble_impl bytes true

/-- `pub fn stablebabble` of the source. -/
def stablebabble (bytes : List Nat) : String := bubblebabble_impl bytes false

/-! ## The per-round seed sequence and the chunk decomposition of the loop -/

/-- The value of `seed` at the start of round `i`: it starts at `1` and is
updated exactly in the rounds that consume two bytes (`i + 1 < rounds`),
to the checksum value in checksum mode and to `0` in stable mode. -/
def seedAt (bytes : List Nat) (use_seed : Bool) : Nat → Nat
  | 0 => 1
  | i + 1 =>
    let s := seedAt bytes use_seed i
    if i + 1 < bytes.length / 2 + 1 then
      if use_seed then
        (s * 5 + (bytes.getD (2 * i) 0 * 7 + bytes.getD (2 * i + 1) 0)) % 36
      else 0
    else s

/-- The characters emitted by round `i` of the loop. -/
def chunkAt (bytes : List Nat) (f : Bool) (i : Nat) : List Char :=
  (roundStep bytes f (bytes.length / 2 + 1) i (seedAt bytes f i)).1

theorem seedAt_lt_36 (bytes : List Nat) (f : Bool) : ∀ i, seedAt bytes f i < 36 := by
  intro i
  induction i with
  | zero => simp [seedAt]
  | succ i ih =>
    simp only [seedAt]
    split
    · split
      · exact Nat.mod_lt _ (by norm_num)
      · norm_num
    · exact ih

theorem roundStep_snd (bytes : List Nat) (f : Bool) (m s : Nat) :
    (roundStep bytes f (bytes.length / 2 + 1) m s).2 =
      if m + 1 < bytes.length / 2 + 1 then
        (if f then (s * 5 + (bytes.getD (2 * m) 0 * 7 + bytes.getD (2 * m + 1) 0)) % 36
         else 0)
      else s := by
  by_cases h : m + 1 < bytes.length / 2 + 1
  · simp [roundStep, h]
  · by_cases h2 : bytes.length % 2 ≠ 0 <;> simp [roundStep, h, h2]

theorem foldl_loopBody (bytes : List Nat) (f : Bool) :
    ∀ m, (List.range m).foldl (loopBody bytes f (bytes.length / 2 + 1)) ([], 1) =
      (((List.range m).map (chunkAt bytes f)).flatten, seedAt bytes f m) := by
  intro m
  induction m with
  | zero => simp [seedAt]
  | succ m ih =>
    rw [List.range_succ, List.foldl_append, ih]
    simp only [List.foldl_cons, List.foldl_nil, List.map_append, List.map_cons,
      List.map_nil, List.flatten_append]
    unfold loopBody
    refine Prod.ext ?_ ?_
    · simp [chunkAt]
    · simp only []
      rw [roundStep_snd]
      simp [seedAt]

/-- The raw bubble string is the frame `x … x` around the concatenation of
the per-round chunks, each computed at its round's seed. -/
theorem rawBabble_eq_chunks (bytes : List Nat) (f : Bool) :
    rawBabble bytes f =
      'x' :: ((List.range (bytes.length / 2 + 1)).map (chunkAt bytes f)).flatten ++ ['x'] := by
  simp only [rawBabble]
  rw [foldl_loopBody]

/-! ## The explicit form of the chunks -/

/-- The first four characters of a two-byte round (`vowel consonant vowel
consonant`), before the internal hyphen. -/
def prePart (bytes : List Nat) (f : Bool) (i : Nat) : List Char :=
  let b0 := bytes.getD (2 * i) 0
  let s := seedAt bytes f i
  [vowels.getD ((b0 / 64 % 4 + s) % 6) ' ',
   consonants.getD (b0 / 4 % 16) ' ',
   vowels.getD ((b0 % 4 + s / 6) % 6) ' ',
   consonants.getD (bytes.getD (2 * i + 1) 0 / 16 % 16) ' ']

/-- The character of a two-byte round emitted after its internal hyphen. -/
def postPart (bytes : List Nat) (i : Nat) : Char :=
  consonants.getD (bytes.getD (2 * i + 1) 0 % 16) ' '

/-- The three characters of the final round: the odd tail round when the
length is odd, the terminal (seed-only) round when it is even. -/
def lastPart (bytes : List Nat) (f : Bool) : List Char :=
  let n := bytes.length / 2 + 1
  let s := seedAt bytes f (n - 1)
  if bytes.length % 2 ≠ 0 then
    let b0 := bytes.getD (2 * (n - 1)) 0
    [vowels.getD ((b0 / 64 % 4 + s) % 6) ' ',
     consonants.getD (b0 / 4 % 16) ' ',
     vowels.getD ((b0 % 4 + s / 6) % 6) ' ']
  else
    [vowels.getD (s % 6) ' ', consonants.getD 16 ' ', vowels.getD (s / 6) ' ']

theorem chunkAt_full (bytes : List Nat) (f : Bool) (i : Nat)
    (h : i + 1 < bytes.length / 2 + 1) :
    chunkAt bytes f i = prePart bytes f i ++ '-' :: [postPart bytes i] := by
  simp [chunkAt, roundStep, prePart, postPart, h]

theorem chunkAt_last (bytes : List Nat) (f : Bool) :
    chunkAt bytes f (bytes.length / 2) = lastPart bytes f := by
  have h : ¬ (bytes.length / 2 + 1 < bytes.length / 2 + 1) := by omega
  by_cases h2 : bytes.length % 2 = 0 <;>
    simp [chunkAt, roundStep, lastPart, h, h2]

/-! ## Facts about the character tables -/

theorem vowels_getD_mem : ∀ k < 6, vowels.getD k ' ' ∈ vowels := by decide

theorem consonants_getD_mem : ∀ k < 17, consonants.getD k ' ' ∈ consonants := by decide

theorem consonants_getD_ne_x : ∀ k < 16, consonants.getD k ' ' ≠ 'x' := by decide

theorem alpha_facts : ∀ c ∈ vowels ++ consonants,
    c.isDigit = false ∧ c ≠ '-' ∧ c ≠ 'w' := by decide

/-! ## Tokenization of the raw string -/

theorem splitDash_ne_nil (s : List Char) : splitDash s ≠ [] := by
  cases s with
  | nil => simp [splitDash]
  | cons c cs =>
    simp only [splitDash]
    split <;> simp

theorem splitDash_dash (cs : List Char) : splitDash ('-' :: cs) = [] :: splitDash cs := by
  simp [splitDash]

theorem splitDash_cons_ne (c : Char) (cs : List Char) (h : c ≠ '-') :
    splitDash (c :: cs) = (c :: (splitDash cs).headI) :: (splitDash cs).tail := by
  simp [splitDash, h]

theorem splitDash_no_dash (s : List Char) (h : '-' ∉ s) : splitDash s = [s] := by
  induction s with
  | nil => rfl
  | cons c cs ih =>
    have hc : c ≠ '-' := fun e => h (by simp [e])
    have hcs : '-' ∉ cs := fun m => h (List.mem_cons_of_mem _ m)
    rw [splitDash_cons_ne c cs hc, ih hcs]
    simp

theorem splitDash_append_dash (x ys : List Char) (h : '-' ∉ x) :
    splitDash (x ++ '-' :: ys) = x :: splitDash ys := by
  induction x with
  | nil => simp [splitDash_dash]
  | cons c x ih =>
    have hc : c ≠ '-' := fun e => h (by simp [e])
    have hx : '-' ∉ x := fun m => h (List.mem_cons_of_mem _ m)
    rw [List.cons_append, splitDash_cons_ne c _ hc, ih hx]
    simp

/-! ## The explicit token list -/

/-- The tokens of the raw string from the second one on: each inner token
is the post-hyphen consonant of the previous round followed by the
pre-hyphen part of its own round; the final token carries the previous
round's post-hyphen consonant, the final round's three characters and the
closing frame `x`.  `d` is the number of inner tokens remaining. -/
def segToks (bytes : List Nat) (f : Bool) : Nat → Nat → List (List Char)
  | 0, i => [postPart bytes i :: lastPart bytes f ++ ['x']]
  | d + 1, i =>
    (postPart bytes i :: prePart bytes f (i + 1)) :: segToks bytes f d (i + 1)

/-- The hyphen-split token list of the raw bubble string. -/
def tokensOf (bytes : List Nat) (f : Bool) : List (List Char) :=
  if bytes.length / 2 + 1 = 1 then ['x' :: lastPart bytes f ++ ['x']]
  else ('x' :: prePart bytes f 0) ::
    segToks bytes f (bytes.length / 2 + 1 - 2) 0

theorem vowel_char : ∀ k < 6, (vowels.getD k ' ').isDigit = false ∧
    vowels.getD k ' ' ≠ '-' ∧ vowels.getD k ' ' ≠ 'w' ∧ vowels.getD k ' ' ≠ 'x' := by
  decide

theorem consonant_char : ∀ k < 17, (consonants.getD k ' ').isDigit = false ∧
    consonants.getD k ' ' ≠ '-' ∧ consonants.getD k ' ' ≠ 'w' := by
  decide

theorem mem_prePart_alpha (bytes : List Nat) (f : Bool) (i : Nat) :
    ∀ c ∈ prePart bytes f i, c ∈ vowels ++ consonants := by
  intro c hc
  simp only [prePart, List.mem_cons, List.not_mem_nil, or_false] at hc
  rcases hc with h | h | h | h <;> subst h
  · exact List.mem_append_left _ (vowels_getD_mem _ (Nat.mod_lt _ (by norm_num)))
  · exact List.mem_append_right _ (consonants_getD_mem _ (by omega))
  · exact List.mem_append_left _ (vowels_getD_mem _ (Nat.mod_lt _ (by norm_num)))
  · exact List.mem_append_right _ (consonants_getD_mem _ (by omega))

theorem postPart_alpha (bytes : List Nat) (i : Nat) :
    postPart bytes i ∈ vowels ++ consonants :=
  List.mem_append_right _ (consonants_getD_mem _ (by omega))

theorem mem_lastPart_alpha (bytes : List Nat) (f : Bool) :
    ∀ c ∈ lastPart bytes f, c ∈ vowels ++ consonants := by
  intro c hc
  have hs := seedAt_lt_36 bytes f (bytes.length / 2 + 1 - 1)
  simp only [lastPart] at hc
  split at hc <;>
    simp only [List.mem_cons, List.not_mem_nil, or_false] at hc
  · rcases hc with h | h | h <;> subst h
    · exact List.mem_append_left _ (vowels_getD_mem _ (Nat.mod_lt _ (by norm_num)))
    · exact List.mem_append_right _ (consonants_getD_mem _ (by omega))
    · exact List.mem_append_left _ (vowels_getD_mem _ (Nat.mod_lt _ (by norm_num)))
  · rcases hc with h | h | h <;> subst h
    · exact List.mem_append_left _ (vowels_getD_mem _ (Nat.mod_lt _ (by norm_num)))
    · exact List.mem_append_right _ (consonants_getD_mem _ (by norm_num))
    · exact List.mem_append_left _ (vowels_getD_mem _ (by omega))

theorem prePart_no_dash (bytes : List Nat) (f : Bool) (i : Nat) :
    '-' ∉ prePart bytes f i := fun h =>
  (alpha_facts _ (mem_prePart_alpha bytes f i _ h)).2.1 rfl

theorem postPart_ne_dash (bytes : List Nat) (i : Nat) : postPart bytes i ≠ '-' :=
  (alpha_facts _ (postPart_alpha bytes i)).2.1

theorem lastPart_no_dash (bytes : List Nat) (f : Bool) : '-' ∉ lastPart bytes f :=
  fun h => (alpha_facts _ (mem_lastPart_alpha bytes f _ h)).2.1 rfl

theorem postPart_ne_x (bytes : List Nat) (i : Nat) : postPart bytes i ≠ 'x' :=
  consonants_getD_ne_x _ (by omega)

theorem segToks_spec (bytes : List Nat) (f : Bool) :
    ∀ d i, i + d + 2 = bytes.length / 2 + 1 →
      splitDash (postPart bytes i ::
          ((List.range' (i + 1) (d + 1)).map (chunkAt bytes f)).flatten ++ ['x']) =
        segToks bytes f d i := by
  intro d
  induction d with
  | zero =>
    intro i hi
    have h1 : i + 1 = bytes.length / 2 := by omega
    rw [List.range'_succ]
    simp only [List.range'_zero, List.map_cons, List.map_nil, List.flatten_cons,
      List.flatten_nil, List.append_nil]
    rw [h1, chunkAt_last]
    have hnd : '-' ∉ postPart bytes i :: lastPart bytes f ++ ['x'] := by
      intro h
      rcases List.mem_cons.mp h with h | h
      · exact postPart_ne_dash bytes i h.symm
      · rcases List.mem_append.mp h with h | h
        · exact lastPart_no_dash bytes f h
        · simp at h
    rw [splitDash_no_dash _ hnd]
    rfl
  | succ d ih =>
    intro i hi
    rw [List.range'_succ]
    simp only [List.map_cons, List.flatten_cons]
    rw [chunkAt_full bytes f (i + 1) (by omega)]
    have harr : postPart bytes i ::
        ((prePart bytes f (i + 1) ++ '-' :: [postPart bytes (i + 1)]) ++
          ((List.range' (i + 1 + 1) (d + 1)).map (chunkAt bytes f)).flatten) ++ ['x'] =
        (postPart bytes i :: prePart bytes f (i + 1)) ++ '-' ::
          (postPart bytes (i + 1) ::
            ((List.range' (i + 1 + 1) (d + 1)).map (chunkAt bytes f)).flatten ++ ['x']) := by
      simp
    rw [harr]
    have hnd : '-' ∉ postPart bytes i :: prePart bytes f (i + 1) := by
      intro h
      rcases List.mem_cons.mp h with h | h
      · exact postPart_ne_dash bytes i h.symm
      · exact prePart_no_dash bytes f (i + 1) h
    rw [splitDash_append_dash _ _ hnd, ih (i + 1) (by omega)]
    rfl

/-- The hyphen-split tokens of the raw bubble string are exactly
`tokensOf`. -/
theorem splitDash_rawBabble (bytes : List Nat) (f : Bool) :
    splitDash (rawBabble bytes f) = tokensOf bytes f := by
  rw [rawBabble_eq_chunks]
  by_cases h : bytes.length / 2 = 0
  · have : bytes.length / 2 + 1 = 1 := by omega
    rw [this]
    have hr1 : List.range 1 = [0] := rfl
    simp only [hr1, List.map_cons, List.map_nil, List.flatten_cons,
      List.flatten_nil, List.append_nil]
    have h0 : chunkAt bytes f 0 = lastPart bytes f := by
      have := chunkAt_last bytes f
      rwa [h] at this
    rw [h0]
    have hnd : '-' ∉ 'x' :: lastPart bytes f ++ ['x'] := by
      intro hm
      rcases List.mem_cons.mp hm with hm | hm
      · simp at hm
      · rcases List.mem_append.mp hm with hm | hm
        · exact lastPart_no_dash bytes f hm
        · simp at hm
    rw [splitDash_no_dash _ hnd]
    simp [tokensOf, this]
  · have hn : bytes.length / 2 + 1 = ((bytes.length / 2 - 1) + 1) + 1 := by omega
    rw [hn, List.range_eq_range', List.range'_succ]
    simp only [List.map_cons, List.flatten_cons]
    rw [chunkAt_full bytes f 0 (by omega)]
    have harr : 'x' ::
        ((prePart bytes f 0 ++ '-' :: [postPart bytes 0]) ++
          ((List.range' 1 ((bytes.length / 2 - 1) + 1)).map (chunkAt bytes f)).flatten) ++ ['x'] =
        ('x' :: prePart bytes f 0) ++ '-' ::
          (postPart bytes 0 ::
            ((List.range' (0 + 1) ((bytes.length / 2 - 1) + 1)).map (chunkAt bytes f)).flatten ++
              ['x']) := by
      simp
    rw [harr]
    have hnd : '-' ∉ 'x' :: prePart bytes f 0 := by
      intro hm
      rcases List.mem_cons.mp hm with hm | hm
      · simp at hm
      · exact prePart_no_dash bytes f 0 hm
    rw [splitDash_append_dash _ _ hnd, segToks_spec bytes f _ 0 (by omega)]
    simp only [tokensOf]
    rw [if_neg (by omega)]
    have : bytes.length / 2 + 1 - 2 = bytes.length / 2 - 1 := by omega
    rw [this]

/-- Structure of the token list from the second token on: a block of
inner tokens followed by the single final token. -/
theorem segToks_decomp (bytes : List Nat) (f : Bool) :
    ∀ d i, ∃ mids, segToks bytes f d i =
        mids ++ [postPart bytes (i + d) :: lastPart bytes f ++ ['x']] ∧
      ∀ t ∈ mids, ∃ j, t = postPart bytes j :: prePart bytes f (j + 1) := by
  intro d
  induction d with
  | zero => intro i; exact ⟨[], rfl, by simp⟩
  | succ d ih =>
    intro i
    obtain ⟨mids, hm, hall⟩ := ih (i + 1)
    refine ⟨(postPart bytes i :: prePart bytes f (i + 1)) :: mids, ?_, ?_⟩
    · simp only [segToks, hm]
      have : i + 1 + d = i + (d + 1) := by omega
      rw [this]
      rfl
    · intro t ht
      rcases List.mem_cons.mp ht with ht | ht
      · exact ⟨i, ht⟩
      · exact hall t ht

/-! ## Characterisation of the repetition compression -/

/-- The fold of the compression loop, as direct recursion over the word
list with the running index made explicit. -/
def compressGo : Nat → (List Char × List Char × Nat) → List (List Char) →
    List Char × List Char × Nat
  | _, st, [] => st
  | i, st, w :: ws => compressGo (i + 1) (compressStep st (i, w)) ws

theorem enumFrom_foldl_eq_compressGo :
    ∀ (ws : List (List Char)) (i : Nat) st,
      (ws.enumFrom i).foldl compressStep st = compressGo i st ws := by
  intro ws
  induction ws with
  | nil => intro i st; rfl
  | cons w ws ih =>
    intro i st
    rw [List.enumFrom_cons, List.foldl_cons, compressGo, ih]

/-- A maximal run printed as a single token: decimal count prefix when the
run is longer than one, the bare token otherwise. -/
def collTok (k : Nat) (t : List Char) : List Char :=
  (if 1 < k then natDigits k else []) ++ t

/-- What the compression loop appends to `result` from a pending run
`(count, last)` and the remaining words on; the very last run is flushed
by the loop's epilogue without its count. -/
def collapseTail : Nat → List Char → List (List Char) → List Char
  | _, last, [] => '-' :: last
  | count, last, w :: ws =>
    if last = w then collapseTail (count + 1) last ws
    else '-' :: (collTok count last ++ collapseTail 1 w ws)

theorem compressGo_spec :
    ∀ (ws : List (List Char)) (i count : Nat) (last result : List Char), 2 ≤ i →
      (compressGo i (result, last, count) ws).1 ++
          '-' :: (compressGo i (result, last, count) ws).2.1 =
        result ++ collapseTail count last ws := by
  intro ws
  induction ws with
  | nil => intro i count last result hi; rfl
  | cons w ws ih =>
    intro i count last result hi
    by_cases he : last = w
    · rw [show compressGo i (result, last, count) (w :: ws) =
          compressGo (i + 1) (compressStep (result, last, count) (i, w)) ws from rfl]
      simp only [compressStep, he, if_pos]
      rw [ih (i + 1) (count + 1) w result (by omega)]
      simp [collapseTail, he]
    · rw [show compressGo i (result, last, count) (w :: ws) =
          compressGo (i + 1) (compressStep (result, last, count) (i, w)) ws from rfl]
      simp only [compressStep, if_neg he, if_pos (by omega : 0 < i),
        if_pos (by omega : 1 < i)]
      rw [ih (i + 1) 1 w _ (by omega)]
      simp [collapseTail, he, collTok, List.append_assoc]

/-! ## Run-length encoding of the token list -/

/-- Run-length grouping with a pending run `(count, last)`. -/
def rleFrom (count : Nat) (last : List Char) : List (List Char) → List (Nat × List Char)
  | [] => [(count, last)]
  | w :: ws =>
    if last = w then rleFrom (count + 1) last ws
    else (count, last) :: rleFrom 1 w ws

/-- The maximal runs of a token list, as `(length, token)` pairs. -/
def rle : List (List Char) → List (Nat × List Char)
  | [] => []
  | t :: ts => rleFrom 1 t ts

/-- The characters the compression loop produces for a list of runs:
`-<count><token>` per run, with the final run bare. -/
def collapseRuns : List (Nat × List Char) → List Char
  | [] => []
  | (k, t) :: rs =>
    match rs with
    | [] => '-' :: t
    | _ :: _ => '-' :: (collTok k t ++ collapseRuns rs)

theorem rleFrom_ne_nil : ∀ (ws : List (List Char)) (count : Nat) (last : List Char),
    rleFrom count last ws ≠ [] := by
  intro ws
  induction ws with
  | nil => intro count last; simp [rleFrom]
  | cons w ws ih =>
    intro count last
    by_cases he : last = w <;> simp [rleFrom, he, ih]

theorem collapseTail_eq_runs :
    ∀ (ws : List (List Char)) (count : Nat) (last : List Char),
      collapseTail count last ws = collapseRuns (rleFrom count last ws) := by
  intro ws
  induction ws with
  | nil => intro count last; rfl
  | cons w ws ih =>
    intro count last
    by_cases he : last = w
    · rw [collapseTail, if_pos he, rleFrom, if_pos he, ih]
    · rw [collapseTail, if_neg he, rleFrom, if_neg he, ih]
      cases hrf : rleFrom 1 w ws with
      | nil => exact absurd hrf (rleFrom_ne_nil ws 1 w)
      | cons p ps => rfl

/-- For a word list whose first two words differ, the compression of the
source equals the first word followed by the collapsed runs of the rest. -/
theorem compress_eq_collapseRuns (t0 t1 : List Char) (rest : List (List Char))
    (h0 : t0 ≠ []) (h01 : t0 ≠ t1) :
    compress (t0 :: t1 :: rest) = t0 ++ collapseRuns (rle (t1 :: rest)) := by
  have h0' : ¬ ([] : List Char) = t0 := fun e => h0 e.symm
  simp only [compress, List.enum]
  rw [enumFrom_foldl_eq_compressGo]
  rw [show compressGo 0 ([], [], 1) (t0 :: t1 :: rest) =
      compressGo 1 (compressStep ([], [], 1) (0, t0)) (t1 :: rest) from rfl]
  simp only [compressStep, if_neg h0', if_neg (by omega : ¬ 0 < 0)]
  rw [show compressGo 1 ([], t0, 1) (t1 :: rest) =
      compressGo 2 (compressStep ([], t0, 1) (1, t1)) rest from rfl]
  simp only [compressStep, if_neg h01, if_pos (by omega : 0 < 1),
    if_neg (by omega : ¬ 1 < 1), if_neg (by omega : ¬ 1 < 1), List.nil_append]
  rw [compressGo_spec rest 2 1 t1 t0 (by omega), collapseTail_eq_runs]
  rfl

/-! ## Digits and the shape of collapsed tokens -/

theorem digitChar_isDigit : ∀ d < 10, (digitChar d).isDigit = true := by decide

theorem digitsGo_digits : ∀ (f n : Nat), ∀ c ∈ digitsGo f n, c.isDigit = true := by
  intro f
  induction f with
  | zero =>
    intro n c hc
    simp only [digitsGo, List.mem_singleton] at hc
    subst hc
    exact digitChar_isDigit _ (Nat.mod_lt _ (by norm_num))
  | succ f ih =>
    intro n c hc
    simp only [digitsGo] at hc
    split at hc
    · simp only [List.mem_singleton] at hc
      subst hc
      exact digitChar_isDigit _ (by omega)
    · rcases List.mem_append.mp hc with h | h
      · exact ih _ _ h
      · simp only [List.mem_singleton] at h
        subst h
        exact digitChar_isDigit _ (Nat.mod_lt _ (by norm_num))

theorem natDigits_digits (n : Nat) : ∀ c ∈ natDigits n, c.isDigit = true :=
  digitsGo_digits n n

theorem collTok_no_dash (k : Nat) (t : List Char) (h : '-' ∉ t) :
    '-' ∉ collTok k t := by
  intro hm
  rcases List.mem_append.mp hm with hm | hm
  · split at hm
    · have := natDigits_digits _ _ hm
      simp at this
    · simp at hm
  · exact h hm

theorem collTok_one (t : List Char) : collTok 1 t = t := by
  simp [collTok]

/-- Splitting the collapsed runs at the hyphens recovers one collapsed
token per run, provided the final run has length `1`. -/
theorem splitDash_collapseRuns :
    ∀ (rs : List (Nat × List Char)) (tl x : List Char), '-' ∉ x →
      (∀ p ∈ rs, '-' ∉ p.2) → '-' ∉ tl →
      splitDash (x ++ collapseRuns (rs ++ [(1, tl)])) =
        x :: (rs ++ [(1, tl)]).map (fun p : Nat × List Char => collTok p.1 p.2) := by
  intro rs
  induction rs with
  | nil =>
    intro tl x hx _ htl
    simp only [List.nil_append, collapseRuns]
    rw [splitDash_append_dash _ _ hx, splitDash_no_dash _ htl]
    simp [collTok_one]
  | cons p rs ih =>
    intro tl x hx hrs htl
    obtain ⟨k, u⟩ := p
    have hcr : collapseRuns (((k, u) :: rs) ++ [(1, tl)]) =
        '-' :: (collTok k u ++ collapseRuns (rs ++ [(1, tl)])) := by
      cases rs <;> rfl
    rw [hcr, splitDash_append_dash _ _ hx]
    have hu : '-' ∉ u := hrs (k, u) (List.mem_cons_self _ _)
    have := ih tl (collTok k u) (collTok_no_dash k u hu)
      (fun q hq => hrs q (List.mem_cons_of_mem _ hq)) htl
    rw [this]
    rfl

theorem rleFrom_head : ∀ (ws : List (List Char)) (c : Nat) (t : List Char),
    ∃ k rs, rleFrom c t ws = (k, t) :: rs := by
  intro ws
  induction ws with
  | nil => intro c t; exact ⟨c, [], rfl⟩
  | cons w ws ih =>
    intro c t
    by_cases he : t = w
    · subst he
      obtain ⟨k, rs, h⟩ := ih (c + 1) t
      exact ⟨k, rs, by rw [rleFrom, if_pos rfl, h]⟩
    · exact ⟨c, rleFrom 1 w ws, by rw [rleFrom, if_neg he]⟩

/-- Adjacent runs of the run-length encoding carry distinct tokens. -/
theorem rleFrom_chain : ∀ (ws : List (List Char)) (c : Nat) (t : List Char),
    List.Chain' (fun p q : Nat × List Char => p.2 ≠ q.2) (rleFrom c t ws) := by
  intro ws
  induction ws with
  | nil => intro c t; simp [rleFrom]
  | cons w ws ih =>
    intro c t
    by_cases he : t = w
    · subst he
      rw [rleFrom, if_pos rfl]
      exact ih (c + 1) t
    · rw [rleFrom, if_neg he]
      obtain ⟨k, rs, hh⟩ := rleFrom_head ws 1 w
      rw [hh]
      exact List.Chain'.cons he (hh ▸ ih 1 w)

theorem rleFrom_mem : ∀ (ws : List (List Char)) (c : Nat) (t : List Char),
    ∀ p ∈ rleFrom c t ws, p.2 = t ∨ p.2 ∈ ws := by
  intro ws
  induction ws with
  | nil =>
    intro c t p hp
    simp only [rleFrom, List.mem_singleton] at hp
    subst hp
    exact Or.inl rfl
  | cons w ws ih =>
    intro c t p hp
    by_cases he : t = w
    · subst he
      rw [rleFrom, if_pos rfl] at hp
      rcases ih (c + 1) t p hp with h | h
      · exact Or.inl h
      · exact Or.inr (List.mem_cons_of_mem _ h)
    · rw [rleFrom, if_neg he] at hp
      rcases List.mem_cons.mp hp with h | h
      · subst h
        exact Or.inl rfl
      · rcases ih 1 w p h with h' | h'
        · exact Or.inr (h' ▸ List.mem_cons_self _ _)
        · exact Or.inr (List.mem_cons_of_mem _ h')

theorem rleFrom_append_single :
    ∀ (ws : List (List Char)) (count : Nat) (last z : List Char),
      (last :: ws).getLast? ≠ some z →
      rleFrom count last (ws ++ [z]) = rleFrom count last ws ++ [(1, z)] := by
  intro ws
  induction ws with
  | nil =>
    intro count last z h
    have hlz : ¬ last = z := by
      intro e
      exact h (by simp [e])
    simp [rleFrom, hlz]
  | cons w ws ih =>
    intro count last z h
    have h' : (w :: ws).getLast? ≠ some z := by
      rwa [List.getLast?_cons_cons] at h
    by_cases he : last = w
    · rw [List.cons_append, rleFrom, if_pos he, rleFrom, if_pos he]
      subst he
      exact ih (count + 1) last z h'
    · rw [List.cons_append, rleFrom, if_neg he, rleFrom, if_neg he, ih 1 w z h']
      rfl

/-! ## The `"babab"` → `"wa"` substitution -/

theorem replaceGo_nil (f : Nat) : replaceGo f [] = [] := by
  cases f <;> rfl

theorem replaceGo_cons (f : Nat) (c : Char) (rest : List Char) :
    replaceGo (f + 1) (c :: rest) =
      if ['b', 'a', 'b', 'a', 'b'] <+: c :: rest then
        'w' :: 'a' :: replaceGo f (rest.drop 4)
      else c :: replaceGo f rest := rfl

/-- The fuel of the scanner is irrelevant as long as it dominates the
length of the input. -/
theorem replaceGo_congr : ∀ (n : Nat) (l : List Char) (f g : Nat),
    l.length ≤ n → l.length ≤ f → l.length ≤ g → replaceGo f l = replaceGo g l := by
  intro n
  induction n with
  | zero =>
    intro l f g hn _ _
    have : l = [] := List.length_eq_zero.mp (by omega)
    subst this
    rw [replaceGo_nil, replaceGo_nil]
  | succ n ih =>
    intro l f g hn hf hg
    cases l with
    | nil => rw [replaceGo_nil, replaceGo_nil]
    | cons c rest =>
      simp only [List.length_cons] at hn hf hg
      obtain ⟨f', rfl⟩ : ∃ f', f = f' + 1 := ⟨f - 1, by omega⟩
      obtain ⟨g', rfl⟩ : ∃ g', g = g' + 1 := ⟨g - 1, by omega⟩
      rw [replaceGo_cons, replaceGo_cons]
      by_cases hp : ['b', 'a', 'b', 'a', 'b'] <+: c :: rest
      · rw [if_pos hp, if_pos hp,
          ih (rest.drop 4) f' g' (by simp [List.length_drop]; omega)
            (by simp [List.length_drop]; omega) (by simp [List.length_drop]; omega)]
      · rw [if_neg hp, if_neg hp, ih rest f' g' (by omega) (by omega) (by omega)]

theorem replaceBabab_nil : replaceBabab [] = [] := rfl

theorem replaceBabab_head (t : List Char) :
    replaceBabab ('b' :: 'a' :: 'b' :: 'a' :: 'b' :: t) = 'w' :: 'a' :: replaceBabab t := by
  show replaceGo (t.length + 4 + 1) ('b' :: 'a' :: 'b' :: 'a' :: 'b' :: t) = _
  rw [replaceGo_cons, if_pos ⟨t, rfl⟩]
  have hd : ('a' :: 'b' :: 'a' :: 'b' :: t).drop 4 = t := rfl
  rw [hd, replaceGo_congr (t.length + 4) t (t.length + 4) t.length
    (by omega) (by omega) (by omega)]
  rfl

theorem replaceBabab_cons_neg (c : Char) (rest : List Char)
    (h : ¬ ['b', 'a', 'b', 'a', 'b'] <+: c :: rest) :
    replaceBabab (c :: rest) = c :: replaceBabab rest := by
  show replaceGo (rest.length + 1) (c :: rest) = _
  rw [replaceGo_cons, if_neg h]
  rfl

theorem prefix_babab_destruct {c : Char} {rest : List Char}
    (h : ['b', 'a', 'b', 'a', 'b'] <+: c :: rest) :
    ∃ t, c :: rest = 'b' :: 'a' :: 'b' :: 'a' :: 'b' :: t := by
  obtain ⟨t, ht⟩ := h
  exact ⟨t, ht.symm⟩

theorem replaceBabab_ne_nil (l : List Char) (h : l ≠ []) : replaceBabab l ≠ [] := by
  cases l with
  | nil => exact absurd rfl h
  | cons c rest =>
    by_cases hp : ['b', 'a', 'b', 'a', 'b'] <+: c :: rest
    · obtain ⟨t, ht⟩ := prefix_babab_destruct hp
      rw [ht, replaceBabab_head]
      simp
    · rw [replaceBabab_cons_neg c rest hp]
      simp

/-- Short patterns without `'w'` that survive as a prefix of the output
were already a prefix of the input. -/
theorem replaceBabab_prefix_reflect :
    ∀ (n : Nat) (l s : List Char), l.length ≤ n → s.length ≤ 4 → 'w' ∉ s →
      s <+: replaceBabab l → s <+: l := by
  intro n
  induction n with
  | zero =>
    intro l s hn _ _ hp
    have : l = [] := List.length_eq_zero.mp (by omega)
    subst this
    rw [replaceBabab_nil] at hp
    have : s = [] := List.prefix_nil.mp hp
    subst this
    exact List.nil_prefix
  | succ n ih =>
    intro l s hn hs hw hp
    cases l with
    | nil =>
      rw [replaceBabab_nil] at hp
      have : s = [] := List.prefix_nil.mp hp
      subst this
      exact List.nil_prefix
    | cons c rest =>
      by_cases hb : ['b', 'a', 'b', 'a', 'b'] <+: c :: rest
      · obtain ⟨t, ht⟩ := prefix_babab_destruct hb
        rw [ht] at hp ⊢
        rw [replaceBabab_head] at hp
        cases s with
        | nil => exact List.nil_prefix
        | cons x s' =>
          have := (List.cons_prefix_cons.mp hp).1
          exact absurd (this ▸ List.mem_cons_self x s') hw
      · rw [replaceBabab_cons_neg c rest hb] at hp
        cases s with
        | nil => exact List.nil_prefix
        | cons x s' =>
          obtain ⟨hx, hs'⟩ := List.cons_prefix_cons.mp hp
          subst hx
          have hlen : rest.length ≤ n := by
            simp only [List.length_cons] at hn; omega
          have := ih rest s' hlen (by simp at hs ⊢; omega)
            (fun m => hw (List.mem_cons_of_mem _ m)) hs'
          exact List.cons_prefix_cons.mpr ⟨rfl, this⟩

/-- The output of the substitution never starts with `"babab"`. -/
theorem replaceBabab_no_lead : ∀ (n : Nat) (l : List Char), l.length ≤ n →
    ¬ (['b', 'a', 'b', 'a', 'b'] <+: replaceBabab l) := by
  intro n
  induction n with
  | zero =>
    intro l hn hp
    have : l = [] := List.length_eq_zero.mp (by omega)
    subst this
    rw [replaceBabab_nil] at hp
    simp at hp
  | succ n ih =>
    intro l hn hp
    cases l with
    | nil => rw [replaceBabab_nil] at hp; simp at hp
    | cons c rest =>
      by_cases hb : ['b', 'a', 'b', 'a', 'b'] <+: c :: rest
      · obtain ⟨t, ht⟩ := prefix_babab_destruct hb
        rw [ht, replaceBabab_head] at hp
        have := (List.cons_prefix_cons.mp hp).1
        simp at this
      · rw [replaceBabab_cons_neg c rest hb] at hp
        obtain ⟨hc, hs⟩ := List.cons_prefix_cons.mp hp
        subst hc
        have hlen : rest.length ≤ n := by
          simp only [List.length_cons] at hn; omega
        have := replaceBabab_prefix_reflect n rest ['a', 'b', 'a', 'b'] hlen
          (by simp) (by simp) hs
        exact hb (List.cons_prefix_cons.mpr ⟨rfl, this⟩)

theorem infix_cons_elim {s : List Char} {c : Char} {l : List Char}
    (h : s <:+: c :: l) : s <+: c :: l ∨ s <:+: l := by
  obtain ⟨pre, post, hh⟩ := h
  cases pre with
  | nil => exact Or.inl ⟨post, by simpa using hh⟩
  | cons d pre' =>
    rw [List.cons_append, List.cons_append] at hh
    injection hh with h1 h2
    exact Or.inr ⟨pre', post, h2⟩

/-- The output of the substitution never contains `"babab"` at all. -/
theorem replaceBabab_no_infix : ∀ (n : Nat) (l : List Char), l.length ≤ n →
    ¬ (['b', 'a', 'b', 'a', 'b'] <:+: replaceBabab l) := by
  intro n
  induction n with
  | zero =>
    intro l hn hp
    have : l = [] := List.length_eq_zero.mp (by omega)
    subst this
    rw [replaceBabab_nil] at hp
    simp at hp
  | succ n ih =>
    intro l hn hp
    cases l with
    | nil => rw [replaceBabab_nil] at hp; simp at hp
    | cons c rest =>
      by_cases hb : ['b', 'a', 'b', 'a', 'b'] <+: c :: rest
      · obtain ⟨t, ht⟩ := prefix_babab_destruct hb
        rw [ht, replaceBabab_head] at hp
        have hlen : t.length ≤ n := by
          rw [ht] at hn
          simp only [List.length_cons] at hn
          omega
        rcases infix_cons_elim hp with h | h
        · exact absurd (List.cons_prefix_cons.mp h).1 (by simp)
        · rcases infix_cons_elim h with h' | h'
          · exact absurd (List.cons_prefix_cons.mp h').1 (by simp)
          · exact ih t hlen h'
      · rw [replaceBabab_cons_neg c rest hb] at hp
        have hlen : rest.length ≤ n := by
          simp only [List.length_cons] at hn; omega
        rcases infix_cons_elim hp with h | h
        · have := replaceBabab_no_lead (n + 1) (c :: rest) hn
          rw [replaceBabab_cons_neg c rest hb] at this
          exact this h
        · exact ih rest hlen h

/-- Every character of the output comes from the input or from the
replacement `"wa"`. -/
theorem replaceBabab_chars : ∀ (n : Nat) (l : List Char), l.length ≤ n →
    ∀ c ∈ replaceBabab l, c ∈ l ∨ c = 'w' ∨ c = 'a' := by
  intro n
  induction n with
  | zero =>
    intro l hn c hc
    have : l = [] := List.length_eq_zero.mp (by omega)
    subst this
    rw [replaceBabab_nil] at hc
    simp at hc
  | succ n ih =>
    intro l hn c hc
    cases l with
    | nil => rw [replaceBabab_nil] at hc; simp at hc
    | cons d rest =>
      by_cases hb : ['b', 'a', 'b', 'a', 'b'] <+: d :: rest
      · obtain ⟨t, ht⟩ := prefix_babab_destruct hb
        rw [ht, replaceBabab_head] at hc
        have hlen : t.length ≤ n := by
          rw [ht] at hn
          simp only [List.length_cons] at hn
          omega
        rcases List.mem_cons.mp hc with h | hc
        · exact Or.inr (Or.inl h)
        rcases List.mem_cons.mp hc with h | hc
        · exact Or.inr (Or.inr h)
        rcases ih t hlen c hc with h | h
        · rw [ht]
          exact Or.inl (by simp [h])
        · exact Or.inr h
      · rw [replaceBabab_cons_neg d rest hb] at hc
        have hlen : rest.length ≤ n := by
          simp only [List.length_cons] at hn; omega
        rcases List.mem_cons.mp hc with h | hc
        · exact Or.inl (h ▸ List.mem_cons_self d rest)
        rcases ih rest hlen c hc with h | h
        · exact Or.inl (List.mem_cons_of_mem _ h)
        · exact Or.inr h

/-- The substitution preserves a final `'x'`. -/
theorem replaceBabab_getLast : ∀ (n : Nat) (l : List Char), l.length ≤ n →
    l.getLast? = some 'x' → (replaceBabab l).getLast? = some 'x' := by
  intro n
  induction n with
  | zero =>
    intro l hn hl
    have : l = [] := List.length_eq_zero.mp (by omega)
    subst this
    simp at hl
  | succ n ih =>
    intro l hn hl
    cases l with
    | nil => simp at hl
    | cons c rest =>
      by_cases hb : ['b', 'a', 'b', 'a', 'b'] <+: c :: rest
      · obtain ⟨t, ht⟩ := prefix_babab_destruct hb
        rw [ht, replaceBabab_head]
        cases htt : t with
        | nil =>
          rw [ht, htt] at hl
          simp at hl
        | cons u t' =>
          rw [ht, htt] at hl
          have hl' : (u :: t').getLast? = some 'x' := by
            simpa using hl
          have hlen : (u :: t').length ≤ n := by
            rw [ht, htt] at hn
            simp only [List.length_cons] at hn ⊢
            omega
          have hres := ih (u :: t') hlen hl'
          rw [← htt]
          cases hrr : replaceBabab t with
          | nil => exact absurd hrr (htt ▸ replaceBabab_ne_nil _ (by simp))
          | cons r rs =>
            rw [List.getLast?_cons_cons, List.getLast?_cons_cons, ← hrr, htt, hres]
      · rw [replaceBabab_cons_neg c rest hb]
        cases hrest : rest with
        | nil =>
          subst hrest
          rw [replaceBabab_nil]
          simpa using hl
        | cons u t' =>
          rw [hrest] at hl
          have hl' : (u :: t').getLast? = some 'x' := by
            simpa using hl
          have hlen : (u :: t').length ≤ n := by
            rw [hrest] at hn
            simp only [List.length_cons] at hn ⊢
            omega
          have hres := ih (u :: t') hlen hl'
          rw [← hrest]
          cases hrr : replaceBabab rest with
          | nil => exact absurd hrr (hrest ▸ replaceBabab_ne_nil _ (by simp))
          | cons r rs =>
            rw [List.getLast?_cons_cons, ← hrr, hrest, hres]

/-- Leading digits pass through the substitution untouched. -/
theorem replaceBabab_digits_pass : ∀ (xs ys : List Char),
    (∀ c ∈ xs, c.isDigit = true) → replaceBabab (xs ++ ys) = xs ++ replaceBabab ys := by
  intro xs
  induction xs with
  | nil => intro ys _; rfl
  | cons x xs ih =>
    intro ys hd
    have hb : ¬ ['b', 'a', 'b', 'a', 'b'] <+: x :: (xs ++ ys) := by
      intro hp
      have hx := (List.cons_prefix_cons.mp hp).1
      have := hd x (List.mem_cons_self _ _)
      rw [← hx] at this
      simp at this
    rw [List.cons_append, replaceBabab_cons_neg _ _ hb,
      ih ys (fun c hc => hd c (List.mem_cons_of_mem _ hc))]
    rfl

/-- Without an occurrence of `"babab"`, the substitution is the
identity. -/
theorem replaceBabab_id : ∀ (n : Nat) (l : List Char), l.length ≤ n →
    ¬ (['b', 'a', 'b', 'a', 'b'] <:+: l) → replaceBabab l = l := by
  intro n
  induction n with
  | zero =>
    intro l hn _
    have : l = [] := List.length_eq_zero.mp (by omega)
    subst this
    rfl
  | succ n ih =>
    intro l hn hni
    cases l with
    | nil => rfl
    | cons c rest =>
      by_cases hb : ['b', 'a', 'b', 'a', 'b'] <+: c :: rest
      · exact absurd ⟨[], hb.choose, by simpa using hb.choose_spec⟩ hni
      · have hlen : rest.length ≤ n := by
          simp only [List.length_cons] at hn; omega
        have hni' : ¬ (['b', 'a', 'b', 'a', 'b'] <:+: rest) := by
          intro ⟨pre, post, hh⟩
          exact hni ⟨c :: pre, post, by rw [← hh]; rfl⟩
        rw [replaceBabab_cons_neg c rest hb, ih rest hlen hni']

/-! ## The substitution acts tokenwise -/

theorem splitDash_append_no_dash (x ys : List Char) (h : '-' ∉ x) :
    splitDash (x ++ ys) = (x ++ (splitDash ys).headI) :: (splitDash ys).tail := by
  induction x with
  | nil =>
    cases hys : splitDash ys with
    | nil => exact absurd hys (splitDash_ne_nil ys)
    | cons a as => simp [hys]
  | cons c x ih =>
    have hc : c ≠ '-' := fun e => h (by simp [e])
    have hx : '-' ∉ x := fun m => h (List.mem_cons_of_mem _ m)
    rw [List.cons_append, splitDash_cons_ne c _ hc, ih hx]
    simp

theorem splitDash_headI_starts (s : List Char) : (splitDash s).headI <+: s := by
  induction s with
  | nil => simp [splitDash]
  | cons c cs ih =>
    by_cases hc : c = '-'
    · subst hc
      rw [splitDash_dash]
      simp
    · rw [splitDash_cons_ne c cs hc]
      exact List.cons_prefix_cons.mpr ⟨rfl, ih⟩

/-- The substitution commutes with splitting at the hyphens: `"babab"`
contains no hyphen, so each token is rewritten independently. -/
theorem splitDash_replaceBabab : ∀ (n : Nat) (s : List Char), s.length ≤ n →
    splitDash (replaceBabab s) = (splitDash s).map replaceBabab := by
  intro n
  induction n with
  | zero =>
    intro s hn
    have : s = [] := List.length_eq_zero.mp (by omega)
    subst this
    rfl
  | succ n ih =>
    intro s hn
    cases s with
    | nil => rfl
    | cons c cs =>
      have hlen : cs.length ≤ n := by
        simp only [List.length_cons] at hn; omega
      by_cases hc : c = '-'
      · subst hc
        have hb : ¬ ['b', 'a', 'b', 'a', 'b'] <+: '-' :: cs := by
          intro hp
          have := (List.cons_prefix_cons.mp hp).1
          simp at this
        rw [replaceBabab_cons_neg _ _ hb, splitDash_dash, splitDash_dash,
          List.map_cons, ih cs hlen]
        rfl
      · by_cases hb : ['b', 'a', 'b', 'a', 'b'] <+: c :: cs
        · obtain ⟨t, ht⟩ := prefix_babab_destruct hb
          have htc : c = 'b' ∧ cs = 'a' :: 'b' :: 'a' :: 'b' :: t := by
            constructor <;> injections
          obtain ⟨hc', hcs⟩ := htc
          subst hc'
          subst hcs
          have htlen : t.length ≤ n := by
            simp only [List.length_cons] at hn; omega
          rw [replaceBabab_head]
          cases hsp : splitDash t with
          | nil => exact absurd hsp (splitDash_ne_nil t)
          | cons h0 t0 =>
            have hwa : splitDash ('w' :: 'a' :: replaceBabab t) =
                (['w', 'a'] ++ (splitDash (replaceBabab t)).headI) ::
                  (splitDash (replaceBabab t)).tail := by
              exact splitDash_append_no_dash ['w', 'a'] (replaceBabab t) (by decide)
            have hsrc : splitDash ('b' :: 'a' :: 'b' :: 'a' :: 'b' :: t) =
                (['b', 'a', 'b', 'a', 'b'] ++ h0) :: t0 := by
              have := splitDash_append_no_dash ['b', 'a', 'b', 'a', 'b'] t (by decide)
              rw [hsp] at this
              simpa using this
            rw [hwa, hsrc, ih t htlen, hsp]
            simp only [List.map_cons, List.headI, List.tail]
            congr 1
            have : ('b' :: 'a' :: 'b' :: 'a' :: 'b' :: h0) =
                (['b', 'a', 'b', 'a', 'b'] ++ h0) := rfl
            rw [← this, replaceBabab_head]
            rfl
        · rw [replaceBabab_cons_neg c cs hb, splitDash_cons_ne c _ hc,
            splitDash_cons_ne c cs hc, ih cs hlen]
          cases hsp : splitDash cs with
          | nil => exact absurd hsp (splitDash_ne_nil cs)
          | cons h0 t0 =>
            simp only [List.map_cons, List.headI, List.tail]
            congr 1
            have hh0 : ¬ ['b', 'a', 'b', 'a', 'b'] <+: c :: h0 := by
              intro hp
              have hpre : c :: h0 <+: c :: cs := by
                have := splitDash_headI_starts cs
                rw [hsp] at this
                exact List.cons_prefix_cons.mpr ⟨rfl, this⟩
              exact hb (hp.trans hpre)
            exact (replaceBabab_cons_neg c h0 hh0).symm

/-! ## Distinctness of adjacent collapsed tokens after the substitution -/

theorem append_digit_split :
    ∀ (d1 r1 d2 r2 : List Char), (∀ c ∈ d1, c.isDigit = true) →
      (∀ c ∈ d2, c.isDigit = true) → (∀ c ∈ r1, c.isDigit = false) →
      (∀ c ∈ r2, c.isDigit = false) → d1 ++ r1 = d2 ++ r2 → d1 = d2 ∧ r1 = r2 := by
  intro d1
  induction d1 with
  | nil =>
    intro r1 d2 r2 _ hd2 hr1 _ he
    cases d2 with
    | nil => exact ⟨rfl, by simpa using he⟩
    | cons y d2' =>
      exfalso
      have hy : y ∈ r1 := by
        rw [List.nil_append] at he
        rw [he]
        simp
      have h1 := hr1 y hy
      have h2 := hd2 y (List.mem_cons_self _ _)
      rw [h1] at h2
      exact Bool.false_ne_true h2
  | cons x d1' ih =>
    intro r1 d2 r2 hd1 hd2 hr1 hr2 he
    cases d2 with
    | nil =>
      exfalso
      have hx : x ∈ r2 := by
        rw [List.nil_append] at he
        rw [← he]
        simp
      have h1 := hr2 x hx
      have h2 := hd1 x (List.mem_cons_self _ _)
      rw [h1] at h2
      exact Bool.false_ne_true h2
    | cons y d2' =>
      rw [List.cons_append, List.cons_append] at he
      injection he with h1 h2
      obtain ⟨ha, hb⟩ := ih r1 d2' r2 (fun c hc => hd1 c (List.mem_cons_of_mem _ hc))
        (fun c hc => hd2 c (List.mem_cons_of_mem _ hc)) hr1 hr2 h2
      exact ⟨by rw [h1, ha], hb⟩

/-- A well-formed raw token: five characters, all from the letter
tables. -/
def GoodTok (t : List Char) : Prop :=
  t.length = 5 ∧ ∀ c ∈ t, c ∈ vowels ++ consonants

theorem goodTok_no_dash {t : List Char} (h : GoodTok t) : '-' ∉ t :=
  fun m => (alpha_facts _ (h.2 _ m)).2.1 rfl

theorem goodTok_not_digit {t : List Char} (h : GoodTok t) :
    ∀ c ∈ t, c.isDigit = false := fun c m => (alpha_facts c (h.2 c m)).1

/-- On a well-formed token the substitution either replaces the whole
token (when it is exactly `"babab"`) or leaves it unchanged. -/
theorem replaceBabab_goodTok {t : List Char} (h : GoodTok t) :
    replaceBabab t = (if t = ['b', 'a', 'b', 'a', 'b'] then ['w', 'a'] else t) := by
  by_cases he : t = ['b', 'a', 'b', 'a', 'b']
  · subst he
    rw [if_pos rfl]
    rfl
  · rw [if_neg he]
    refine replaceBabab_id t.length t (le_refl _) ?_
    intro hinf
    have hlen := List.IsInfix.length_le hinf
    rw [h.1] at hlen
    have : ['b', 'a', 'b', 'a', 'b'] = t :=
      List.Sublist.eq_of_length hinf.sublist (by rw [h.1]; rfl)
    exact he this.symm

/-- Collapsed tokens of two adjacent runs stay distinct after the
substitution. -/
theorem collTok_replace_ne {t u : List Char} (k k' : Nat)
    (ht : GoodTok t) (hu : GoodTok u) (hne : t ≠ u) :
    replaceBabab (collTok k t) ≠ replaceBabab (collTok k' u) := by
  intro he
  have hdt : ∀ c ∈ (if 1 < k then natDigits k else []), c.isDigit = true := by
    split
    · exact natDigits_digits k
    · simp
  have hdu : ∀ c ∈ (if 1 < k' then natDigits k' else []), c.isDigit = true := by
    split
    · exact natDigits_digits k'
    · simp
  rw [collTok, collTok, replaceBabab_digits_pass _ _ hdt,
    replaceBabab_digits_pass _ _ hdu, replaceBabab_goodTok ht,
    replaceBabab_goodTok hu] at he
  have hrt : ∀ c ∈ (if t = ['b', 'a', 'b', 'a', 'b'] then ['w', 'a'] else t),
      c.isDigit = false := by
    split
    · decide
    · exact goodTok_not_digit ht
  have hru : ∀ c ∈ (if u = ['b', 'a', 'b', 'a', 'b'] then ['w', 'a'] else u),
      c.isDigit = false := by
    split
    · decide
    · exact goodTok_not_digit hu
  obtain ⟨_, hr⟩ := append_digit_split _ _ _ _ hdt hdu hrt hru he
  by_cases h1 : t = ['b', 'a', 'b', 'a', 'b'] <;>
    by_cases h2 : u = ['b', 'a', 'b', 'a', 'b']
  · exact hne (h1.trans h2.symm)
  · rw [if_pos h1, if_neg h2] at hr
    have := hu.1
    rw [← hr] at this
    simp at this
  · rw [if_neg h1, if_pos h2] at hr
    have := ht.1
    rw [hr] at this
    simp at this
  · rw [if_neg h1, if_neg h2] at hr
    exact hne hr

/-! ## Shape of the raw tokens -/

theorem prePart_length (bytes : List Nat) (f : Bool) (i : Nat) :
    (prePart bytes f i).length = 4 := rfl

theorem lastPart_length (bytes : List Nat) (f : Bool) :
    (lastPart bytes f).length = 3 := by
  unfold lastPart
  split <;> rfl

theorem x_mem_alpha : 'x' ∈ vowels ++ consonants := by decide

theorem goodTok_first (bytes : List Nat) (f : Bool) :
    GoodTok ('x' :: prePart bytes f 0) := by
  constructor
  · simp [prePart_length]
  · intro c hc
    rcases List.mem_cons.mp hc with h | h
    · exact h ▸ x_mem_alpha
    · exact mem_prePart_alpha bytes f 0 c h

theorem goodTok_mid (bytes : List Nat) (f : Bool) (j : Nat) :
    GoodTok (postPart bytes j :: prePart bytes f (j + 1)) := by
  constructor
  · simp [prePart_length]
  · intro c hc
    rcases List.mem_cons.mp hc with h | h
    · exact h ▸ postPart_alpha bytes j
    · exact mem_prePart_alpha bytes f (j + 1) c h

theorem goodTok_lastTok (bytes : List Nat) (f : Bool) (j : Nat) :
    GoodTok (postPart bytes j :: lastPart bytes f ++ ['x']) := by
  constructor
  · simp [lastPart_length]
  · intro c hc
    rcases List.mem_cons.mp hc with h | h
    · exact h ▸ postPart_alpha bytes j
    · rcases List.mem_append.mp h with h | h
      · exact mem_lastPart_alpha bytes f c h
      · have : c = 'x' := by simpa using h
        exact this ▸ x_mem_alpha

theorem goodTok_single (bytes : List Nat) (f : Bool) :
    GoodTok ('x' :: lastPart bytes f ++ ['x']) := by
  constructor
  · simp [lastPart_length]
  · intro c hc
    rcases List.mem_cons.mp hc with h | h
    · exact h ▸ x_mem_alpha
    · rcases List.mem_append.mp h with h | h
      · exact mem_lastPart_alpha bytes f c h
      · have : c = 'x' := by simpa using h
        exact this ▸ x_mem_alpha

theorem tokensOf_goodTok (bytes : List Nat) (f : Bool) :
    ∀ t ∈ tokensOf bytes f, GoodTok t := by
  intro t ht
  unfold tokensOf at ht
  split at ht
  · have : t = 'x' :: lastPart bytes f ++ ['x'] := by simpa using ht
    exact this ▸ goodTok_single bytes f
  · rcases List.mem_cons.mp ht with h | h
    · exact h ▸ goodTok_first bytes f
    · obtain ⟨mids, hm, hall⟩ := segToks_decomp bytes f (bytes.length / 2 + 1 - 2) 0
      rw [hm] at h
      rcases List.mem_append.mp h with h | h
      · obtain ⟨j, hj⟩ := hall t h
        exact hj ▸ goodTok_mid bytes f j
      · have : t = postPart bytes (0 + (bytes.length / 2 + 1 - 2)) ::
            lastPart bytes f ++ ['x'] := by simpa using h
        exact this ▸ goodTok_lastTok bytes f _

theorem segToks_length (bytes : List Nat) (f : Bool) :
    ∀ d i, (segToks bytes f d i).length = d + 1 := by
  intro d
  induction d with
  | zero => intro i; rfl
  | succ d ih => intro i; simp [segToks, ih]

theorem tokensOf_length (bytes : List Nat) (f : Bool) :
    (tokensOf bytes f).length = bytes.length / 2 + 1 := by
  unfold tokensOf
  split
  · simp only [List.length_singleton]
    omega
  · simp only [List.length_cons, segToks_length]
    omega

/-! ## End characters of the tokens -/

theorem firstTok_getLast (bytes : List Nat) (f : Bool) (i : Nat) :
    ('x' :: prePart bytes f i).getLast? ≠ some 'x' := by
  intro h
  simp only [prePart, List.getLast?_cons_cons, List.getLast?_singleton,
    Option.some.injEq] at h
  exact consonants_getD_ne_x _ (by omega) h

theorem midTok_getLast (bytes : List Nat) (f : Bool) (j : Nat) :
    (postPart bytes j :: prePart bytes f (j + 1)).getLast? ≠ some 'x' := by
  intro h
  simp only [prePart, List.getLast?_cons_cons, List.getLast?_singleton,
    Option.some.injEq] at h
  exact consonants_getD_ne_x _ (by omega) h

theorem lastTok_getLast (bytes : List Nat) (f : Bool) (j : Nat) :
    (postPart bytes j :: lastPart bytes f ++ ['x']).getLast? = some 'x' := by
  rw [show postPart bytes j :: lastPart bytes f ++ ['x'] =
    (postPart bytes j :: lastPart bytes f) ++ ['x'] from rfl]
  exact List.getLast?_concat _

/-! ## Additional structure of the compressed string -/

theorem compress_single (t : List Char) (h : t ≠ []) : compress [t] = '-' :: t := by
  have h' : ¬ ([] : List Char) = t := fun e => h e.symm
  simp only [compress, List.enum]
  rw [enumFrom_foldl_eq_compressGo]
  rw [show compressGo 0 ([], [], 1) [t] =
      compressGo 1 (compressStep ([], [], 1) (0, t)) [] from rfl]
  simp only [compressStep, if_neg h', if_neg (by omega : ¬ 0 < 0)]
  rfl

theorem collapseRuns_last : ∀ (rs : List (Nat × List Char)) (tl : List Char),
    ∃ pre, collapseRuns (rs ++ [(1, tl)]) = pre ++ '-' :: tl := by
  intro rs
  induction rs with
  | nil => intro tl; exact ⟨[], rfl⟩
  | cons p rs ih =>
    intro tl
    obtain ⟨k, u⟩ := p
    obtain ⟨pre, hpre⟩ := ih tl
    refine ⟨'-' :: (collTok k u ++ pre), ?_⟩
    have hcr : collapseRuns (((k, u) :: rs) ++ [(1, tl)]) =
        '-' :: (collTok k u ++ collapseRuns (rs ++ [(1, tl)])) := by
      cases rs <;> rfl
    rw [hcr, hpre]
    simp

theorem bubblebabble_data (bytes : List Nat) :
    (bubblebabble bytes).data = rawBabble bytes true := rfl

theorem stablebabble_data (bytes : List Nat) :
    (stablebabble bytes).data =
      replaceBabab (compress (splitDash (rawBabble bytes false))) := rfl

/-- The intermediate `result` string of stable mode, before the
`"babab"` → `"wa"` substitution. -/
def stableCompressed (bytes : List Nat) : List Char :=
  compress (splitDash (rawBabble bytes false))

theorem compressStep_snd (st : List Char × List Char × Nat) (i : Nat) (w : List Char) :
    (compressStep st (i, w)).2.1 = w := by
  simp only [compressStep]
  split_ifs
  all_goals first | assumption | rfl

theorem compressGo_last : ∀ (ws : List (List Char)) (w0 : List Char) (i : Nat) st,
    some ((compressGo i st (w0 :: ws)).2.1) = (w0 :: ws).getLast? := by
  intro ws
  induction ws with
  | nil =>
    intro w0 i st
    rw [show compressGo i st [w0] = compressStep st (i, w0) from rfl, compressStep_snd]
    rfl
  | cons w1 ws ih =>
    intro w0 i st
    rw [show compressGo i st (w0 :: w1 :: ws) =
      compressGo (i + 1) (compressStep st (i, w0)) (w1 :: ws) from rfl]
    rw [ih w1 (i + 1) (compressStep st (i, w0)), List.getLast?_cons_cons]

/-- The last characters of the compressed string are those of the final
token. -/
theorem compress_getLast (w0 : List Char) (ws : List (List Char)) (b : Char)
    (bs : List Char) (hB : (w0 :: ws).getLast? = some (b :: bs)) :
    (compress (w0 :: ws)).getLast? = (b :: bs).getLast? := by
  simp only [compress, List.enum]
  rw [enumFrom_foldl_eq_compressGo]
  have hlast := compressGo_last ws w0 0 ([], [], 1)
  rw [hB, Option.some.injEq] at hlast
  rw [hlast, List.getLast?_append]
  cases bs with
  | nil => rfl
  | cons b1 bs' =>
    rw [List.getLast?_cons_cons]
    cases hbb : (b1 :: bs').getLast? with
    | none => simp at hbb
    | some v => rfl

/-- Chains of runs with distinct good tokens stay chains of distinct
strings after collapsing and substitution. -/
theorem chain_map_replace (rs : List (Nat × List Char))
    (hgood : ∀ p ∈ rs, GoodTok p.2)
    (hchain : List.Chain' (fun p q : Nat × List Char => p.2 ≠ q.2) rs) :
    List.Chain' (fun a b : List Char => a ≠ b)
      (rs.map (fun p : Nat × List Char => replaceBabab (collTok p.1 p.2))) := by
  induction rs with
  | nil => simp
  | cons p rs ih =>
    cases rs with
    | nil => simp
    | cons q rs' =>
      rw [List.chain'_cons] at hchain
      rw [List.map_cons, List.map_cons, List.chain'_cons]
      refine ⟨collTok_replace_ne p.1 q.1 (hgood p (by simp)) (hgood q (by simp))
        hchain.1, ?_⟩
      have := ih (fun r hr => hgood r (List.mem_cons_of_mem _ hr)) hchain.2
      simpa using this

/-- Master theorem for stable mode with at least two input bytes: the
hyphen-split tokens of the compressed string are exactly the collapsed
maximal runs of the raw token list. -/
theorem stable_compressed_tokens (bytes : List Nat) (h2 : 2 ≤ bytes.length) :
    splitDash (stableCompressed bytes) =
      (rle (splitDash (rawBabble bytes false))).map
        (fun p : Nat × List Char => collTok p.1 p.2) := by
  have hn : ¬ (bytes.length / 2 + 1 = 1) := by omega
  unfold stableCompressed
  rw [splitDash_rawBabble]
  unfold tokensOf
  rw [if_neg hn]
  obtain ⟨mids, hm, hall⟩ := segToks_decomp bytes false (bytes.length / 2 + 1 - 2) 0
  rw [hm]
  have ht0good := goodTok_first bytes false
  have ht0dash : '-' ∉ 'x' :: prePart bytes false 0 := goodTok_no_dash ht0good
  have htlgood := goodTok_lastTok bytes false (0 + (bytes.length / 2 + 1 - 2))
  have htldash : '-' ∉ postPart bytes (0 + (bytes.length / 2 + 1 - 2)) ::
      lastPart bytes false ++ ['x'] := goodTok_no_dash htlgood
  cases mids with
  | nil =>
    have hne : 'x' :: prePart bytes false 0 ≠
        postPart bytes (0 + (bytes.length / 2 + 1 - 2)) :: lastPart bytes false ++ ['x'] := by
      intro e
      injection e with e1 _
      exact postPart_ne_x bytes _ e1.symm
    rw [List.nil_append, compress_eq_collapseRuns _ _ _ (by simp) hne]
    have hrle1 : rle [postPart bytes (0 + (bytes.length / 2 + 1 - 2)) ::
        lastPart bytes false ++ ['x']] =
        [] ++ [(1, postPart bytes (0 + (bytes.length / 2 + 1 - 2)) ::
          lastPart bytes false ++ ['x'])] := rfl
    rw [hrle1, splitDash_collapseRuns [] _ _ ht0dash (by simp) htldash]
    rw [show rle (('x' :: prePart bytes false 0) ::
        [postPart bytes (0 + (bytes.length / 2 + 1 - 2)) :: lastPart bytes false ++ ['x']]) =
      rleFrom 1 ('x' :: prePart bytes false 0)
        [postPart bytes (0 + (bytes.length / 2 + 1 - 2)) :: lastPart bytes false ++ ['x']]
      from rfl, rleFrom, if_neg hne]
    simp [rleFrom, collTok_one]
  | cons m ms =>
    have hmgood : ∀ t ∈ m :: ms, GoodTok t := by
      intro t ht
      obtain ⟨j, hj⟩ := hall t ht
      exact hj ▸ goodTok_mid bytes false j
    have hne0 : 'x' :: prePart bytes false 0 ≠ m := by
      obtain ⟨j, hj⟩ := hall m (by simp)
      rw [hj]
      intro e
      injection e with e1 _
      exact postPart_ne_x bytes j e1.symm
    have hlastne : (m :: ms).getLast? ≠
        some (postPart bytes (0 + (bytes.length / 2 + 1 - 2)) ::
          lastPart bytes false ++ ['x']) := by
      rw [List.getLast?_eq_getLast (m :: ms) (by simp)]
      intro e
      rw [Option.some.injEq] at e
      have hmem := @List.getLast_mem _ (m :: ms) (by simp)
      obtain ⟨j, hj⟩ := hall _ hmem
      rw [hj] at e
      have h1 := midTok_getLast bytes false j
      rw [e, lastTok_getLast] at h1
      exact h1 rfl
    have happ : (m :: ms) ++ [postPart bytes (0 + (bytes.length / 2 + 1 - 2)) ::
        lastPart bytes false ++ ['x']] =
      m :: (ms ++ [postPart bytes (0 + (bytes.length / 2 + 1 - 2)) ::
        lastPart bytes false ++ ['x']]) := rfl
    rw [happ, compress_eq_collapseRuns _ _ _ (by simp) hne0]
    have hrw : rle (m :: (ms ++ [postPart bytes (0 + (bytes.length / 2 + 1 - 2)) ::
        lastPart bytes false ++ ['x']])) =
        rleFrom 1 m ms ++ [(1, postPart bytes (0 + (bytes.length / 2 + 1 - 2)) ::
          lastPart bytes false ++ ['x'])] := by
      rw [show rle (m :: (ms ++ [postPart bytes (0 + (bytes.length / 2 + 1 - 2)) ::
          lastPart bytes false ++ ['x']])) =
        rleFrom 1 m (ms ++ [postPart bytes (0 + (bytes.length / 2 + 1 - 2)) ::
          lastPart bytes false ++ ['x']]) from rfl]
      exact rleFrom_append_single ms 1 m _ hlastne
    rw [hrw]
    have hdashes : ∀ p ∈ rleFrom 1 m ms, '-' ∉ p.2 := by
      intro p hp
      rcases rleFrom_mem ms 1 m p hp with h | h
      · exact h ▸ goodTok_no_dash (hmgood m (by simp))
      · exact goodTok_no_dash (hmgood p.2 (List.mem_cons_of_mem _ h))
    rw [splitDash_collapseRuns _ _ _ ht0dash hdashes htldash]
    have hrle2 : rle (('x' :: prePart bytes false 0) :: m ::
        (ms ++ [postPart bytes (0 + (bytes.length / 2 + 1 - 2)) ::
          lastPart bytes false ++ ['x']])) =
        (1, 'x' :: prePart bytes false 0) ::
          (rleFrom 1 m ms ++ [(1, postPart bytes (0 + (bytes.length / 2 + 1 - 2)) ::
            lastPart bytes false ++ ['x'])]) := by
      rw [show rle (('x' :: prePart bytes false 0) :: m ::
          (ms ++ [postPart bytes (0 + (bytes.length / 2 + 1 - 2)) ::
            lastPart bytes false ++ ['x']])) =
        rleFrom 1 ('x' :: prePart bytes false 0) (m ::
          (ms ++ [postPart bytes (0 + (bytes.length / 2 + 1 - 2)) ::
            lastPart bytes false ++ ['x']])) from rfl]
      rw [rleFrom, if_neg hne0]
      exact congrArg (List.cons (1, 'x' :: prePart bytes false 0)) hrw
    rw [hrle2, List.map_cons, collTok_one]

theorem rle_goodTok (bytes : List Nat) :
    ∀ p ∈ rle (splitDash (rawBabble bytes false)), GoodTok p.2 := by
  intro p hp
  rw [splitDash_rawBabble] at hp
  have hgood := tokensOf_goodTok bytes false
  cases hts : tokensOf bytes false with
  | nil => rw [hts] at hp; simp [rle] at hp
  | cons t ts =>
    rw [hts] at hp
    have hp' : p ∈ rleFrom 1 t ts := hp
    rw [hts] at hgood
    rcases rleFrom_mem ts 1 t p hp' with h | h
    · exact h ▸ hgood t (by simp)
    · exact hgood p.2 (List.mem_cons_of_mem _ h)

theorem rle_chain (ws : List (List Char)) :
    List.Chain' (fun p q : Nat × List Char => p.2 ≠ q.2) (rle ws) := by
  cases ws with
  | nil => simp [rle]
  | cons t ts => exact rleFrom_chain ts 1 t

/-- No two adjacent hyphen-split tokens of the final stable output are
equal. -/
theorem stable_final_chain (bytes : List Nat) :
    List.Chain' (fun a b : List Char => a ≠ b) (splitDash (stablebabble bytes).data) := by
  rw [stablebabble_data]
  by_cases h2 : 2 ≤ bytes.length
  · rw [show compress (splitDash (rawBabble bytes false)) = stableCompressed bytes from rfl]
    rw [splitDash_replaceBabab (stableCompressed bytes).length _ (le_refl _)]
    rw [stable_compressed_tokens bytes h2, List.map_map]
    have := chain_map_replace (rle (splitDash (rawBabble bytes false)))
      (rle_goodTok bytes) (rle_chain _)
    simpa [Function.comp] using this
  · have h1 : bytes.length / 2 + 1 = 1 := by omega
    rw [splitDash_rawBabble]
    unfold tokensOf
    rw [if_pos h1, compress_single _ (by simp)]
    have hb : ¬ ['b', 'a', 'b', 'a', 'b'] <+: '-' :: ('x' :: lastPart bytes false ++ ['x']) := by
      intro hp
      have := (List.cons_prefix_cons.mp hp).1
      simp at this
    rw [replaceBabab_cons_neg _ _ hb, splitDash_dash]
    have hnodash : '-' ∉ replaceBabab ('x' :: lastPart bytes false ++ ['x']) := by
      intro hm
      rcases replaceBabab_chars _ _ (le_refl _) '-' hm with h | h | h
      · rcases List.mem_cons.mp h with h | h
        · simp at h
        · rcases List.mem_append.mp h with h | h
          · exact lastPart_no_dash bytes false h
          · simp at h
      · simp at h
      · simp at h
    rw [splitDash_no_dash _ hnodash]
    refine List.chain'_cons.mpr ⟨?_, by simp⟩
    intro e
    exact replaceBabab_ne_nil _ (by simp) e.symm

/-! ## Framing -/

theorem bubblebabble_head (bytes : List Nat) :
    (bubblebabble bytes).data.head? = some 'x' := by
  rw [bubblebabble_data, rawBabble_eq_chunks]
  rfl

theorem bubblebabble_last (bytes : List Nat) :
    (bubblebabble bytes).data.getLast? = some 'x' := by
  rw [bubblebabble_data, rawBabble_eq_chunks]
  rw [show 'x' :: ((List.range (bytes.length / 2 + 1)).map (chunkAt bytes true)).flatten
      ++ ['x'] =
    ('x' :: ((List.range (bytes.length / 2 + 1)).map (chunkAt bytes true)).flatten)
      ++ ['x'] from rfl]
  exact List.getLast?_concat _

theorem stablebabble_last (bytes : List Nat) :
    (stablebabble bytes).data.getLast? = some 'x' := by
  rw [stablebabble_data]
  apply replaceBabab_getLast (compress (splitDash (rawBabble bytes false))).length _
    (le_refl _)
  rw [splitDash_rawBabble]
  unfold tokensOf
  by_cases h1 : bytes.length / 2 + 1 = 1
  · rw [if_pos h1]
    rw [compress_getLast ('x' :: lastPart bytes false ++ ['x']) [] 'x'
      (lastPart bytes false ++ ['x']) rfl]
    exact List.getLast?_concat ('x' :: lastPart bytes false)
  · rw [if_neg h1]
    obtain ⟨mids, hm, hall⟩ := segToks_decomp bytes false (bytes.length / 2 + 1 - 2) 0
    rw [hm]
    have hB : (('x' :: prePart bytes false 0) ::
        (mids ++ [postPart bytes (0 + (bytes.length / 2 + 1 - 2)) ::
          lastPart bytes false ++ ['x']])).getLast? =
        some (postPart bytes (0 + (bytes.length / 2 + 1 - 2)) ::
          (lastPart bytes false ++ ['x'])) := by
      rw [show ('x' :: prePart bytes false 0) ::
          (mids ++ [postPart bytes (0 + (bytes.length / 2 + 1 - 2)) ::
            lastPart bytes false ++ ['x']]) =
        (('x' :: prePart bytes false 0) :: mids) ++
          [postPart bytes (0 + (bytes.length / 2 + 1 - 2)) ::
            lastPart bytes false ++ ['x']] from rfl]
      exact List.getLast?_concat _
    rw [compress_getLast _ _ _ _ hB]
    exact lastTok_getLast bytes false _

/-- The first run of the stable raw token list is the first token alone. -/
theorem stable_rle_head (bytes : List Nat) (h2 : 2 ≤ bytes.length) :
    ∃ rs, rle (splitDash (rawBabble bytes false)) =
      (1, 'x' :: prePart bytes false 0) :: rs := by
  rw [splitDash_rawBabble]
  unfold tokensOf
  rw [if_neg (by omega : ¬ bytes.length / 2 + 1 = 1)]
  obtain ⟨mids, hm, hall⟩ := segToks_decomp bytes false (bytes.length / 2 + 1 - 2) 0
  rw [hm]
  cases mids with
  | nil =>
    have hne : 'x' :: prePart bytes false 0 ≠
        postPart bytes (0 + (bytes.length / 2 + 1 - 2)) :: lastPart bytes false ++ ['x'] := by
      intro e
      injection e with e1 _
      exact postPart_ne_x bytes _ e1.symm
    refine ⟨rleFrom 1 (postPart bytes (0 + (bytes.length / 2 + 1 - 2)) ::
      lastPart bytes false ++ ['x']) [], ?_⟩
    rw [show rle (('x' :: prePart bytes false 0) :: ([] ++
        [postPart bytes (0 + (bytes.length / 2 + 1 - 2)) :: lastPart bytes false ++ ['x']])) =
      rleFrom 1 ('x' :: prePart bytes false 0)
        [postPart bytes (0 + (bytes.length / 2 + 1 - 2)) :: lastPart bytes false ++ ['x']]
      from rfl]
    simp only [rleFrom, if_neg hne]
  | cons m ms =>
    have hne0 : 'x' :: prePart bytes false 0 ≠ m := by
      obtain ⟨j, hj⟩ := hall m (by simp)
      rw [hj]
      intro e
      injection e with e1 _
      exact postPart_ne_x bytes j e1.symm
    refine ⟨rleFrom 1 m (ms ++ [postPart bytes (0 + (bytes.length / 2 + 1 - 2)) ::
      lastPart bytes false ++ ['x']]), ?_⟩
    rw [show rle (('x' :: prePart bytes false 0) :: (m :: ms ++
        [postPart bytes (0 + (bytes.length / 2 + 1 - 2)) :: lastPart bytes false ++ ['x']])) =
      rleFrom 1 ('x' :: prePart bytes false 0) (m :: (ms ++
        [postPart bytes (0 + (bytes.length / 2 + 1 - 2)) :: lastPart bytes false ++ ['x']]))
      from rfl]
    simp only [rleFrom, if_neg hne0]

/-- With at least two input bytes, the stable output starts with `x`. -/
theorem stablebabble_head_of_ge2 (bytes : List Nat) (h2 : 2 ≤ bytes.length) :
    (stablebabble bytes).data.head? = some 'x' := by
  rw [stablebabble_data]
  obtain ⟨rs, hrs⟩ := stable_rle_head bytes h2
  have hmaster := stable_compressed_tokens bytes h2
  rw [hrs, List.map_cons, collTok_one] at hmaster
  have hpre := splitDash_headI_starts (stableCompressed bytes)
  rw [hmaster] at hpre
  simp only [List.headI] at hpre
  obtain ⟨r, hr⟩ := hpre
  rw [show compress (splitDash (rawBabble bytes false)) = stableCompressed bytes from rfl,
    ← hr, List.cons_append]
  have hb : ¬ ['b', 'a', 'b', 'a', 'b'] <+: 'x' :: (prePart bytes false 0 ++ r) := by
    intro hp
    have := (List.cons_prefix_cons.mp hp).1
    simp at this
  rw [replaceBabab_cons_neg _ _ hb]
  rfl

/-! ## Stable-mode content independence -/

theorem seedAt_stable_congr (b1 b2 : List Nat) (hlen : b1.length = b2.length) :
    ∀ j, seedAt b1 false j = seedAt b2 false j := by
  intro j
  induction j with
  | zero => rfl
  | succ j ih =>
    simp [seedAt, hlen, ih]

theorem stable_chunk_congr (b1 b2 : List Nat) (i : Nat) (hlen : b1.length = b2.length)
    (h0 : b1.getD (2 * i) 0 = b2.getD (2 * i) 0)
    (h1 : b1.getD (2 * i + 1) 0 = b2.getD (2 * i + 1) 0) :
    chunkAt b1 false i = chunkAt b2 false i := by
  have hs := seedAt_stable_congr b1 b2 hlen i
  simp only [chunkAt, roundStep, hlen, hs, h0, h1]

/-! ## A bounds-checked variant of the encoding loop -/

/-- `roundStep` with every table and byte access through `List.get?`:
any out-of-bounds index would surface as `none`. -/
def roundStepO (bytes : List Nat) (use_seed : Bool) (rounds i seed : Nat) :
    Option (List Char × Nat) :=
  if i + 1 < rounds ∨ bytes.length % 2 ≠ 0 then
    (bytes.get? (2 * i)).bind fun b0 =>
    (vowels.get? ((b0 / 64 % 4 + seed) % 6)).bind fun v0 =>
    (consonants.get? (b0 / 4 % 16)).bind fun c1 =>
    (vowels.get? ((b0 % 4 + seed / 6) % 6)).bind fun v2 =>
    if i + 1 < rounds then
      (bytes.get? (2 * i + 1)).bind fun b1 =>
      (consonants.get? (b1 / 16 % 16)).bind fun c3 =>
      (consonants.get? (b1 % 16)).bind fun c4 =>
      some ([v0, c1, v2, c3, '-', c4],
        if use_seed then (seed * 5 + (b0 * 7 + b1)) % 36 else 0)
    else some ([v0, c1, v2], seed)
  else
    (vowels.get? (seed % 6)).bind fun va =>
    (consonants.get? 16).bind fun cx =>
    (vowels.get? (seed / 6)).bind fun vb =>
    some ([va, cx, vb], seed)

/-- Fold a fallible step over the round indices. -/
def foldlO (g : (List Char × Nat) → Nat → Option (List Char × Nat)) :
    (List Char × Nat) → List Nat → Option (List Char × Nat)
  | st, [] => some st
  | st, i :: is => (g st i).bind fun st2 => foldlO g st2 is

/-- The whole loop of `bubblebabble_impl` with checked accesses. -/
def rawBabbleO (bytes : List Nat) (use_seed : Bool) : Option (List Char) :=
  (foldlO
    (fun (st : List Char × Nat) i =>
      (roundStepO bytes use_seed (bytes.length / 2 + 1) i st.2).bind fun r =>
        some (st.1 ++ r.1, r.2)) ([], 1) (List.range (bytes.length / 2 + 1))).bind
    fun st => some ('x' :: st.1 ++ ['x'])

theorem get?_eq_some_getD {α : Type} (l : List α) (k : Nat) (d : α)
    (h : k < l.length) : l.get? k = some (l.getD k d) := by
  rw [List.get?_eq_getElem?, List.getElem?_eq_getElem h, List.getD_eq_getElem?_getD,
    List.getElem?_eq_getElem h]
  rfl

theorem vowels_get? (k : Nat) (h : k < 6) :
    vowels.get? k = some (vowels.getD k ' ') :=
  get?_eq_some_getD vowels k ' ' h

theorem consonants_get? (k : Nat) (h : k < 17) :
    consonants.get? k = some (consonants.getD k ' ') :=
  get?_eq_some_getD consonants k ' ' h

theorem roundStepO_eq (bytes : List Nat) (f : Bool) (i seed : Nat)
    (hi : i < bytes.length / 2 + 1) (hs : seed < 36) :
    roundStepO bytes f (bytes.length / 2 + 1) i seed =
      some (roundStep bytes f (bytes.length / 2 + 1) i seed) := by
  by_cases hc : i + 1 < bytes.length / 2 + 1 ∨ bytes.length % 2 ≠ 0
  · have hb0 : 2 * i < bytes.length := by omega
    rw [roundStepO, roundStep, if_pos hc, if_pos hc,
      get?_eq_some_getD bytes (2 * i) 0 hb0, Option.some_bind,
      vowels_get? _ (Nat.mod_lt _ (by norm_num)), Option.some_bind,
      consonants_get? _ (by omega), Option.some_bind,
      vowels_get? _ (Nat.mod_lt _ (by norm_num)), Option.some_bind]
    by_cases hc2 : i + 1 < bytes.length / 2 + 1
    · have hb1 : 2 * i + 1 < bytes.length := by omega
      rw [if_pos hc2, if_pos hc2,
        get?_eq_some_getD bytes (2 * i + 1) 0 hb1, Option.some_bind,
        consonants_get? _ (by omega), Option.some_bind,
        consonants_get? _ (by omega), Option.some_bind]
    · rw [if_neg hc2, if_neg hc2]
  · rw [roundStepO, roundStep, if_neg hc, if_neg hc,
      vowels_get? _ (Nat.mod_lt _ (by norm_num)), Option.some_bind,
      consonants_get? 16 (by norm_num), Option.some_bind,
      vowels_get? (seed / 6) (by omega), Option.some_bind]

theorem foldlO_append (g : (List Char × Nat) → Nat → Option (List Char × Nat)) :
    ∀ (l1 l2 : List Nat) (st : List Char × Nat),
      foldlO g st (l1 ++ l2) = (foldlO g st l1).bind fun s => foldlO g s l2 := by
  intro l1
  induction l1 with
  | nil => intro l2 st; simp [foldlO]
  | cons i l1 ih =>
    intro l2 st
    cases hgi : g st i with
    | none => simp [foldlO, hgi]
    | some st2 => simp [foldlO, hgi, ih]

theorem foldlO_single (g : (List Char × Nat) → Nat → Option (List Char × Nat))
    (st : List Char × Nat) (m : Nat) : foldlO g st [m] = g st m := by
  cases hg : g st m <;> simp [foldlO, hg]

theorem foldO_eq (bytes : List Nat) (f : Bool) :
    ∀ m, m ≤ bytes.length / 2 + 1 →
      foldlO
        (fun (st : List Char × Nat) i =>
          (roundStepO bytes f (bytes.length / 2 + 1) i st.2).bind fun r =>
            some (st.1 ++ r.1, r.2)) ([], 1) (List.range m) =
        some ((List.range m).foldl (loopBody bytes f (bytes.length / 2 + 1)) ([], 1)) := by
  intro m
  induction m with
  | zero => intro _; rfl
  | succ m ih =>
    intro hm
    have hst := foldl_loopBody bytes f m
    rw [List.range_succ, foldlO_append, ih (by omega), Option.some_bind,
      List.foldl_append, hst, foldlO_single]
    show (roundStepO bytes f (bytes.length / 2 + 1) m (seedAt bytes f m)).bind _ = _
    rw [roundStepO_eq bytes f m (seedAt bytes f m) (by omega) (seedAt_lt_36 bytes f m),
      Option.some_bind]
    rfl

/-- Every access of the loop is in bounds: the checked loop never
returns `none`, and it computes exactly the raw bubble string. -/
theorem rawBabbleO_eq (bytes : List Nat) (f : Bool) :
    rawBabbleO bytes f = some (rawBabble bytes f) := by
  unfold rawBabbleO
  rw [foldO_eq bytes f _ (le_refl _)]
  rfl

/-! ## Decidable occurrence check for `"babab"` -/

/-- Whether `"babab"` occurs anywhere in the string. -/
def hasInfixBabab : List Char → Bool
  | [] => false
  | c :: cs => (['b', 'a', 'b', 'a', 'b'].isPrefixOf (c :: cs)) || hasInfixBabab cs

theorem hasInfixBabab_eq_false_iff (l : List Char) :
    hasInfixBabab l = false ↔ ¬ (['b', 'a', 'b', 'a', 'b'] <:+: l) := by
  induction l with
  | nil => simp [hasInfixBabab]
  | cons c cs ih =>
    have hsplit : (['b', 'a', 'b', 'a', 'b'] <:+: c :: cs) ↔
        (['b', 'a', 'b', 'a', 'b'] <+: c :: cs) ∨ (['b', 'a', 'b', 'a', 'b'] <:+: cs) := by
      constructor
      · exact infix_cons_elim
      · intro h
        rcases h with h | h
        · obtain ⟨t, ht⟩ := h
          exact ⟨[], t, by simpa using ht⟩
        · obtain ⟨s, t, ht⟩ := h
          exact ⟨c :: s, t, by rw [← ht]; rfl⟩
    constructor
    · intro h hinf
      rw [hasInfixBabab, Bool.or_eq_false_iff] at h
      rcases hsplit.mp hinf with hp | hi
      · rw [← List.isPrefixOf_iff_prefix] at hp
        rw [h.1] at hp
        exact Bool.false_ne_true hp
      · exact (ih.mp h.2) hi
    · intro h
      rw [hasInfixBabab, Bool.or_eq_false_iff]
      refine ⟨?_, ih.mpr (fun hi => h (hsplit.mpr (Or.inr hi)))⟩
      cases hp : List.isPrefixOf ['b', 'a', 'b', 'a', 'b'] (c :: cs) with
      | false => rfl
      | true =>
        exact absurd (hsplit.mpr (Or.inl ( List.isPrefixOf_iff_prefix.mp hp))) h

/-! ## Claim theorems -/

/-- C1 counterexample: the claim fails on the code. `stablebabble` of the
empty byte sequence is `"-xexax"`, which starts with `'-'`, not `'x'`
(the compression loop emits a leading `'-'` when the token list is a
single token, i.e. for inputs of fewer than two bytes). -/
theorem C1_counterexample :
    stablebabble [] = "-xexax" ∧ (stablebabble []).data.head? ≠ some 'x' := by
  constructor
  · rfl
  · decide

/-- C1 (amended): `bubblebabble` always starts and ends with `'x'`;
`stablebabble` always ends with `'x'`, and starts with `'x'` whenever the
input has at least two bytes (for shorter inputs it starts with `'-'`). -/
theorem C1_framing (bytes : List Nat) :
    (bubblebabble bytes).data.head? = some 'x' ∧
    (bubblebabble bytes).data.getLast? = some 'x' ∧
    (stablebabble bytes).data.getLast? = some 'x' ∧
    (2 ≤ bytes.length → (stablebabble bytes).data.head? = some 'x') :=
  ⟨bubblebabble_head bytes, bubblebabble_last bytes, stablebabble_last bytes,
    fun h2 => stablebabble_head_of_ge2 bytes h2⟩

/-- C1 witness: the framing theorem applied to the two-byte input
`[0, 0]`. -/
theorem C1_framing_witness : (stablebabble [0, 0]).data.head? = some 'x' :=
  (C1_framing [0, 0]).2.2.2 (by decide)

/-- C2 counterexample: in stable mode the seed of the very first round is
`1`, not `0`; the first vowel of `stablebabble [0]` is accordingly `'e'`
(`vowels[1]`), not `'a'` (`vowels[0]`). -/
theorem C2_counterexample :
    seedAt [0] false 0 = 1 ∧ seedAt [0] false 0 ≠ 0 ∧ stablebabble [0] = "-xebax" := by
  refine ⟨rfl, by decide, ?_⟩
  rfl

/-- C2 (amended): in stable mode the seed is `1` at round `0` and `0` at
every later executed round; the vowel indices of round `i` are computed
from `seedAt bytes false i` (see `rawBabble_eq_chunks` and `chunkAt`). -/
theorem C2_stable_seed (bytes : List Nat) :
    seedAt bytes false 0 = 1 ∧
    ∀ i, 1 ≤ i → i < bytes.length / 2 + 1 → seedAt bytes false i = 0 := by
  refine ⟨rfl, ?_⟩
  intro i h1 hi
  cases i with
  | zero => omega
  | succ j => simp [seedAt, hi]

/-- C2 witness: the amended seed theorem applied to the four-byte input
`[0, 0, 0, 0]` at round `1`. -/
theorem C2_stable_seed_witness :
    seedAt [0, 0, 0, 0] false 1 = 0 ∧ seedAt [0, 0, 0, 0] false 0 = 1 :=
  ⟨(C2_stable_seed [0, 0, 0, 0]).2 1 (by decide) (by decide),
    (C2_stable_seed [0, 0, 0, 0]).1⟩

/-- C3: in stable mode, the characters emitted by round `i` depend only on
the input length and the bytes `2i` and `2i + 1` of the round itself,
never on preceding bytes; the raw encoding is exactly the frame around
these per-round chunks. -/
theorem C3_stable_chunk_independence (b1 b2 : List Nat) (i : Nat)
    (hlen : b1.length = b2.length)
    (h0 : b1.getD (2 * i) 0 = b2.getD (2 * i) 0)
    (h1 : b1.getD (2 * i + 1) 0 = b2.getD (2 * i + 1) 0) :
    chunkAt b1 false i = chunkAt b2 false i ∧
    rawBabble b1 false =
      'x' :: ((List.range (b1.length / 2 + 1)).map (chunkAt b1 false)).flatten ++ ['x'] :=
  ⟨stable_chunk_congr b1 b2 i hlen h0 h1, rawBabble_eq_chunks b1 false⟩

/-- C3 witness: two three-byte inputs agreeing on bytes `0` and `1` but
not on byte `2` produce the same chunk for round `0`. -/
theorem C3_stable_chunk_independence_witness :
    chunkAt [5, 7, 9] false 0 = chunkAt [5, 7, 200] false 0 :=
  (C3_stable_chunk_independence [5, 7, 9] [5, 7, 200] 0 (by decide) (by decide)
    (by decide)).1

/-- C4: splitting the checksum-mode output on `'-'` yields exactly
`⌈(L + 1) / 2⌉` tokens, written `(L + 1 + 1) / 2` in natural-number
division. -/
theorem C4_token_count (bytes : List Nat) :
    (splitDash (bubblebabble bytes).data).length = (bytes.length + 1 + 1) / 2 := by
  rw [bubblebabble_data, splitDash_rawBabble, tokensOf_length]
  omega

/-- C5 counterexample: the six-zero-byte input has a maximal run of two
`"babab"` tokens in its raw stable encoding, but the final `stablebabble`
output does not contain the token `"2babab"` — the `"wa"` substitution has
turned it into `"2wa"`. -/
theorem C5_counterexample :
    rle (splitDash (rawBabble [0, 0, 0, 0, 0, 0] false)) =
      [(1, ['x', 'e', 'b', 'a', 'b']), (2, ['b', 'a', 'b', 'a', 'b']),
        (1, ['b', 'a', 'x', 'a', 'x'])] ∧
    splitDash (stablebabble [0, 0, 0, 0, 0, 0]).data =
      [['x', 'e', 'b', 'a', 'b'], ['2', 'w', 'a'], ['b', 'a', 'x', 'a', 'x']] ∧
    natDigits 2 ++ ['b', 'a', 'b', 'a', 'b'] ∉
      splitDash (stablebabble [0, 0, 0, 0, 0, 0]).data := by
  refine ⟨by decide, by decide, by decide⟩

/-- C5 (amended): for inputs of at least two bytes, the hyphen-split
tokens of the compressed string before the `"babab"` → `"wa"`
substitution are exactly one token `<k><token>` (bare when `k = 1`) per
maximal run of the raw token list; and in the final output no two
adjacent hyphen-split tokens are ever equal. -/
theorem C5_compression (bytes : List Nat) :
    (2 ≤ bytes.length →
      splitDash (stableCompressed bytes) =
        (rle (splitDash (rawBabble bytes false))).map
          (fun p : Nat × List Char => collTok p.1 p.2)) ∧
    List.Chain' (fun a b : List Char => a ≠ b) (splitDash (stablebabble bytes).data) :=
  ⟨fun h2 => stable_compressed_tokens bytes h2, stable_final_chain bytes⟩

/-- C5 witness: the compression theorem applied to the six-zero-byte
input. -/
theorem C5_compression_witness :
    splitDash (stableCompressed [0, 0, 0, 0, 0, 0]) =
      (rle (splitDash (rawBabble [0, 0, 0, 0, 0, 0] false))).map
        (fun p : Nat × List Char => collTok p.1 p.2) :=
  (C5_compression [0, 0, 0, 0, 0, 0]).1 (by decide)

/-- C6: the final stable output never contains the substring `"babab"`:
the output is exactly the `"babab"` → `"wa"` substitution applied to the
compressed string, and that substitution leaves no occurrence behind and
introduces none. -/
theorem C6_no_babab (bytes : List Nat) :
    hasInfixBabab (stablebabble bytes).data = false ∧
    (stablebabble bytes).data = replaceBabab (stableCompressed bytes) := by
  refine ⟨?_, stablebabble_data bytes⟩
  rw [hasInfixBabab_eq_false_iff, stablebabble_data]
  exact replaceBabab_no_infix (compress (splitDash (rawBabble bytes false))).length _
    (le_refl _)

/-- C7: the checksum-mode encoding of the sixteen-byte reference vector. -/
theorem C7_vector :
    bubblebabble [0x2a, 0x0a, 0xe5, 0xc0, 0, 0x2, 0, 0x5, 0x5c, 0xf9, 0xcc, 0xc8,
      0x7c, 0x48, 0x97, 0xc0] =
      "xepib-panus-bubub-dubyb-hilyz-nefas-myzug-mihos-bexux" := by
  rfl

/-- C8: the checksum-mode encoding of the empty sequence is `"xexax"`,
produced by a single terminal round with seed `1`. -/
theorem C8_empty :
    bubblebabble [] = "xexax" ∧ ([] : List Nat).length / 2 + 1 = 1 ∧
      seedAt [] true 0 = 1 := by
  refine ⟨rfl, rfl, rfl⟩

/-- C9: the encoding loop with every table and byte access bounds-checked
computes `some` of the raw bubble string for every byte sequence and both
modes — no access is ever out of bounds — and the seed always stays below
`36`, so `seed / 6` and `seed % 6` are valid vowel indices. -/
theorem C9_no_out_of_bounds (bytes : List Nat) (f : Bool) :
    rawBabbleO bytes f = some (rawBabble bytes f) ∧ ∀ i, seedAt bytes f i < 36 :=
  ⟨rawBabbleO_eq bytes f, seedAt_lt_36 bytes f⟩

/-- C10: every hyphen-split token of the checksum-mode output is exactly
five characters long. -/
theorem C10_token_length (bytes : List Nat) :
    ∀ t ∈ splitDash (bubblebabble bytes).data, t.length = 5 := by
  intro t ht
  rw [bubblebabble_data, splitDash_rawBabble] at ht
  exact (tokensOf_goodTok bytes true t ht).1

/-- C10 witness: the token-length theorem applied to the single token of
the empty input. -/
theorem C10_token_length_witness :
    ['x', 'e', 'x', 'a', 'x'] ∈ splitDash (bubblebabble []).data ∧
      (['x', 'e', 'x', 'a', 'x'] : List Char).length = 5 :=
  ⟨by decide, C10_token_length [] ['x', 'e', 'x', 'a', 'x'] (by decide)⟩

/-! ## The remaining test vectors of the repository -/

theorem stablebabble_vector :
    stablebabble [0x2a, 0x0a, 0xe5, 0xc0, 0, 0x2, 0, 0x5, 0x5c, 0xf9, 0xcc, 0xc8,
      0x7c, 0x48, 0x97, 0xc0] =
      "xepib-pones-wa-dabab-helaz-nofas-mezag-mihos-baxax" := by
  rfl

theorem bubblebabble_zeros :
    bubblebabble [0, 0, 0, 0, 0, 0, 0, 0, 0, 0, 0, 0, 0, 0, 0, 0] =
      "xebab-bybab-bebub-bybib-bebib-bybub-bebab-bybab-bexux" := by
  rfl

theorem stablebabble_zeros :
    stablebabble [0, 0, 0, 0, 0, 0, 0, 0, 0, 0, 0, 0, 0, 0, 0, 0] =
      "xebab-7wa-baxax" := by
  rfl

theorem stablebabble_localhost :
    stablebabble [0, 0, 0, 0, 0, 0, 0, 0, 0, 0, 0, 0, 0, 0, 0, 1] =
      "xebab-7wa-caxax" := by
  rfl

theorem bubblebabble_linklocal :
    bubblebabble [0xfe, 0x80, 0, 0, 0, 0, 0, 0, 0x46, 0x85, 0x00, 0xff, 0xfe, 0x76,
      0x17, 0x22] =
      "xuzim-bobab-bobib-bobab-bucum-hibiz-zuzil-kyhed-duxix" := by
  rfl

theorem stablebabble_linklocal :
    stablebabble [0xfe, 0x80, 0, 0, 0, 0, 0, 0, 0x46, 0x85, 0x00, 0xff, 0xfe, 0x76,
      0x17, 0x22] =
      "xuzim-3wa-becim-habaz-zozil-kahod-daxax" := by
  rfl
